import Mathlib

/-!
Shallow embedding of the `memfis` in-memory read-only filesystem
(an immutable virtual filesystem over a flat sorted list of
(path, content) entries), together with theorems checking the
specification's claims about it.

Go strings are modelled as lists of bytes (`Str := List Nat`, each
element intended `< 256`; all paths accepted by the library are valid
UTF-8, hence byte values `≥ 0xF5` never occur in stored names).
Go's `(value, error)` returns are modelled with `Except`/`Option`.
-/

set_option maxRecDepth 10000

/-- Byte strings: Go `string` is an immutable byte sequence. -/
abbrev Str := List Nat

/-- `pathSeparator = '/'` (byte 47). -/
def sep : Nat := 47

/-- ASCII helper used for concrete test inputs: maps a Lean string literal
to its byte list.  Correct for the ASCII-only literals used in this file. -/
def str (s : String) : Str := s.data.map Char.toNat

/-- Byte-wise three-way comparison, i.e. Go `cmp.Compare` on strings. -/
def cmpStr : Str → Str → Ordering
  | [], [] => .eq
  | [], _ :: _ => .lt
  | _ :: _, [] => .gt
  | a :: as, b :: bs =>
    if a < b then .lt else if b < a then .gt else cmpStr as bs

/-- Strict byte-wise order on strings. -/
def strLt (a b : Str) : Bool := cmpStr a b == .lt

/-- Non-strict byte-wise order on strings. -/
def strLe (a b : Str) : Bool := cmpStr a b != .gt

/-- Go `strings.IndexByte(s, '/')`: index of the first separator, if any. -/
def idxSep : Str → Option Nat
  | [] => none
  | c :: rest => if c == sep then some 0 else (idxSep rest).map (· + 1)

/-- A successful separator search yields an index below the length. -/
theorem idxSep_lt_length {s : Str} {i : Nat} (h : idxSep s = some i) :
    i < s.length := by
  induction s generalizing i with
  | nil => simp [idxSep] at h
  | cons c cs ih =>
    simp only [idxSep] at h
    by_cases hc : c == sep
    · simp [hc] at h; simp [List.length_cons]; omega
    · simp [hc] at h
      rcases h with ⟨j, hj, rfl⟩
      have := ih hj
      simp only [List.length_cons]
      omega

/-- `nextSegment` returns the next part of path up to and including a "/"
(the whole string when it has no separator). -/
def nextSegment (path : Str) : Str :=
  match idxSep path with
  | none => path
  | some i => path.take (i + 1)

/-- `isDir` reports if path is a directory: empty or ending in the separator. -/
def isDir (path : Str) : Bool :=
  path.isEmpty || path.getLast? == some sep

/-- `toDir` converts a name to a directory path (appends "/" when absent;
no-op on the empty path). -/
def toDir (path : Str) : Str :=
  if path.isEmpty then path
  else if path.getLast? == some sep then path
  else path ++ [sep]

/-- `fsPath` translates the internal path representation to the io/fs one:
"" becomes "." and a terminal "/" is truncated. -/
def fsPath (path : Str) : Str :=
  if path.isEmpty then [46]
  else if path.getLast? == some sep then path.dropLast
  else path

/-- Continuation byte of a UTF-8 sequence (0x80–0xBF). -/
def utf8Cont (b : Nat) : Bool := 128 ≤ b && b ≤ 191

/-- Go `utf8.ValidString` over the byte list: standard UTF-8 validity
(rejecting surrogates, overlong encodings and values above U+10FFFF). -/
def validUTF8 : Str → Bool
  | [] => true
  | b :: rest =>
    if b ≤ 127 then validUTF8 rest
    else if 194 ≤ b && b ≤ 223 then
      match rest with
      | b1 :: r => utf8Cont b1 && validUTF8 r
      | [] => false
    else if b == 224 then
      match rest with
      | b1 :: b2 :: r => (160 ≤ b1 && b1 ≤ 191) && utf8Cont b2 && validUTF8 r
      | _ => false
    else if 225 ≤ b && b ≤ 236 then
      match rest with
      | b1 :: b2 :: r => utf8Cont b1 && utf8Cont b2 && validUTF8 r
      | _ => false
    else if b == 237 then
      match rest with
      | b1 :: b2 :: r => (128 ≤ b1 && b1 ≤ 159) && utf8Cont b2 && validUTF8 r
      | _ => false
    else if 238 ≤ b && b ≤ 239 then
      match rest with
      | b1 :: b2 :: r => utf8Cont b1 && utf8Cont b2 && validUTF8 r
      | _ => false
    else if b == 240 then
      match rest with
      | b1 :: b2 :: b3 :: r =>
        (144 ≤ b1 && b1 ≤ 191) && utf8Cont b2 && utf8Cont b3 && validUTF8 r
      | _ => false
    else if 241 ≤ b && b ≤ 243 then
      match rest with
      | b1 :: b2 :: b3 :: r =>
        utf8Cont b1 && utf8Cont b2 && utf8Cont b3 && validUTF8 r
      | _ => false
    else if b == 244 then
      match rest with
      | b1 :: b2 :: b3 :: r =>
        (128 ≤ b1 && b1 ≤ 143) && utf8Cont b2 && utf8Cont b3 && validUTF8 r
      | _ => false
    else false

/-- Separator splitting (the element loop of Go `fs.ValidPath`), written
with an element accumulator so the recursion is structural: `splitSep acc
rest` returns the "/"-separated elements of `acc ++ rest` (with `acc` the
part of the current element already scanned). -/
def splitSep (acc : Str) : Str → List Str
  | [] => [acc]
  | c :: rest =>
    if c == sep then acc :: splitSep [] rest
    else splitSep (acc ++ [c]) rest

/-- The element checks of Go `fs.ValidPath`: every "/"-separated element
nonempty and none "." or ".." (Go returns at the first offender; as a
boolean this is `all`). -/
def validPathElems (name : Str) : Bool :=
  (splitSep [] name).all (fun elem =>
    !(elem == [] || elem == [46] || elem == [46, 46]))

/-- Go `fs.ValidPath`: UTF-8 validity, "." allowed, otherwise every
element nonempty and none "." or "..". -/
def goValidPath (name : Str) : Bool :=
  if !validUTF8 name then false
  else if name == [46] then true
  else validPathElems name

/-- `validPath` reports if a path in the memfis internal representation is
valid according to io/fs ("." itself being reserved). -/
def validPath (path : Str) : Bool :=
  if path == [46] then false
  else goValidPath (fsPath path)

/-- `lenCommon` retrieves the index of the first byte different in a and b. -/
def lenCommon : Str → Str → Nat
  | a :: as, b :: bs => if a == b then lenCommon as bs + 1 else 0
  | _, _ => 0

/-- Length of the longest prefix of s ending in the separator
(Go `strings.LastIndexByte(s, '/') + 1`). -/
def lastSepEnd : Str → Nat
  | [] => 0
  | c :: rest =>
    let r := lastSepEnd rest
    if r > 0 then r + 1 else if c == sep then 1 else 0

/-- `commonPath` retrieves the common directory prefix including the
trailing "/". -/
def commonPath (a b : Str) : Str :=
  a.take (lastSepEnd (a.take (lenCommon a b)))

/-- `increment` a string by 1 based on its binary representation
(big-endian); `none` when every byte is already 0xFF. -/
def incrementRev : Str → Option Str
  | [] => none
  | b :: rest =>
    if b == 255 then (incrementRev rest).map (0 :: ·)
    else some ((b + 1) :: rest)

/-- Go `increment(s)`: the lexicographically next string, `none` standing
for the `(s, false)` overflow result.  The empty string increments to
itself (the Go loop body never runs). -/
def increment (s : Str) : Option Str :=
  if s.isEmpty then some [] else (incrementRev s.reverse).map List.reverse

/-- The inner loop of `walk`, walking the remaining suffix `n.drop p`
byte-by-byte: at every separator (absolute position q, separator included)
emit the directory prefix `n.take q` and remember `q` as the final
offset. -/
def walkInnerAux (n : Str) (p : Nat) (last : Nat) : Str → List Str × Nat
  | [] => ([], last)
  | c :: rest =>
    if c == sep then
      let r := walkInnerAux n (p + 1) (p + 1) rest
      (n.take (p + 1) :: r.1, r.2)
    else walkInnerAux n (p + 1) last rest

/-- The inner loop of `walk`: starting at offset `o` in entry name `n`,
emit each further directory prefix (one per separator) and return the
final offset (the position after the last separator, or `o`). -/
def walkInner (n : Str) (o : Nat) : List Str × Nat :=
  walkInnerAux n o o (n.drop o)

/-- An entry: an immutable (path, content) pair, the `File` interface of the
source (`GetName`/`GetContent`); `fileSize` is the content length (the
`FileSizer` contract demands `Size()` match `len(GetContent())`). -/
structure MEntry where
  name : Str
  content : Str
deriving DecidableEq, Repr

instance : Inhabited MEntry := ⟨⟨[], []⟩⟩

/-- `fileSize` of an entry (`int64(len(f.GetContent()))`, with which a
`FileSizer`'s override must agree). -/
def fileSize (f : MEntry) : Int := f.content.length

/-- `walk` over a sorted entry list: starting from `prevdir`, visit every
directory level and every entry, returning the sequence of paths handed to
the callback.  After an entry, `prevdir` is its deepest emitted directory
prefix (`n.take` of the final inner offset, which equals the Go string
value `prevdir`). -/
def walkFrom (prevdir : Str) : List MEntry → List Str
  | [] => []
  | f :: rest =>
    let pd := commonPath prevdir f.name
    let inner := walkInner f.name pd.length
    inner.1 ++ f.name :: walkFrom (f.name.take inner.2) rest

/-- Go `walk(rootpath, fs, fn)`: the list of paths passed to `fn`. -/
def walk (rootpath : Str) (fs : List MEntry) : List Str := walkFrom rootpath fs

/-- Error values of the embedded code: io/fs sentinel errors, the
package-local error variables, io errors, and `other` for errors coming
from an external sink (io.Writer). -/
inductive FsErr where
  | notExist
  | invalid
  | closed
  | errClosed
  | errStatClosed
  | errChangedRoot
  | errNegativeOffset
  | eof
  | unexpectedEOF
  | eisdir
  | badPattern
  | other (code : Nat)
deriving DecidableEq, Repr

/-- A Go `fs.PathError` (operation, path, underlying error). -/
structure PathError where
  op : String
  path : Str
  err : FsErr
deriving DecidableEq, Repr

/-- An error returned by the embedded operations: either a bare sentinel
error or a `fs.PathError`. -/
inductive MemErr where
  | raw (e : FsErr)
  | pathErr (p : PathError)
deriving DecidableEq, Repr

/-- `fsPathError` creates a fs.PathError using the io/fs conformant path. -/
def fsPathError (op : String) (fspath : Str) (err : FsErr) : MemErr :=
  .pathErr ⟨op, fspath, err⟩

/-- `memPathError` makes the mempath io/fs conformant and creates a
fs.PathError. -/
def memPathError (op : String) (mempath : Str) (err : FsErr) : MemErr :=
  .pathErr ⟨op, fsPath mempath, err⟩

/-- Regular-file mode bits: 0o640. -/
def modeFile : Nat := 0o640

/-- Directory mode bits: `fs.ModeDir | 0o750`. -/
def modeDir : Nat := 2147483648 + 0o750

/-- `memFile`: a stateful handle over one entry; `name` is the basename
computed at creation, `ridx` the read offset (negative once closed). -/
structure memFile where
  file : MEntry
  name : Str
  ridx : Int
deriving DecidableEq, Repr

/-- `makeFile` wraps an entry, computing the basename
(`n[strings.LastIndexByte(n, pathSeparator)+1:]`). -/
def makeFile (file : MEntry) : memFile :=
  { file := file
    name := file.name.drop (lastSepEnd file.name)
    ridx := 0 }

/-- FileInfo accessors of `memFile`: size is the entry's `fileSize`. -/
def memFile.size (f : memFile) : Int := fileSize f.file

/-- A `memFile` never reports itself as a directory. -/
def memFile.isDirInfo (_ : memFile) : Bool := false

/-- A `memFile` reports the fixed regular-file mode bits. -/
def memFile.mode (_ : memFile) : Nat := modeFile

/-- Closed sentinel: the read offset is negative. -/
def memFile.isClosed (f : memFile) : Bool := f.ridx < 0

/-- `Close` marks the handle closed via the sentinel and never errors. -/
def memFile.Close (f : memFile) : Option MemErr × memFile :=
  (none, { f with ridx := -1 })

/-- `Stat` on a file handle: fails when closed, else returns the handle
itself as FileInfo. -/
def memFile.Stat (f : memFile) : Except MemErr memFile :=
  if f.isClosed then .error (fsPathError "stat" f.name .closed)
  else .ok f

/-- `Read` into a buffer of length `bufLen`: the bytes copied and the
advanced handle, or an error (bare `io.EOF` at end of content). -/
def memFile.Read (f : memFile) (bufLen : Nat) : Except MemErr (Str × memFile) :=
  if f.isClosed then .error (fsPathError "read" f.name .closed)
  else
    let data := f.file.content
    if (data.length : Int) ≤ f.ridx then .error (.raw .eof)
    else
      let bytes := (data.drop f.ridx.toNat).take bufLen
      .ok (bytes, { f with ridx := f.ridx + bytes.length })

/-- `ReadAt` with buffer length `bufLen` at absolute offset `off`:
returns the copied bytes and the error component; the handle state is
not touched. -/
def memFile.ReadAt (f : memFile) (bufLen : Nat) (off : Int) :
    Str × Option MemErr :=
  if off < 0 then ([], some (fsPathError "readat" f.name .errNegativeOffset))
  else if f.isClosed then ([], some (fsPathError "read" f.name .closed))
  else
    let data := f.file.content
    if (data.length : Int) < off then
      ([], some (fsPathError "read" f.name .unexpectedEOF))
    else
      let bytes := (data.drop off.toNat).take bufLen
      if bytes.length < bufLen then (bytes, some (.raw .eof))
      else (bytes, none)

/-- The byte string `WriteTo` hands to `io.WriteString`: the WHOLE content
(`f.GetContent()`), not the content from the current offset. -/
def memFile.writeToArg (f : memFile) : Str := f.file.content

/-- `WriteTo(w)`, parameterised by the sink's response `(i, werr)` to being
handed `writeToArg`: fails when closed (sink untouched); otherwise advances
the offset by `i` and wraps a sink error into a path error. -/
def memFile.WriteTo (f : memFile) (i : Nat) (werr : Option FsErr) :
    (Int × Option MemErr) × memFile :=
  if f.isClosed then ((0, some (fsPathError "read" f.name .closed)), f)
  else
    let f2 := { f with ridx := f.ridx + i }
    match werr with
    | some e => ((i, some (fsPathError "read" f.name e)), f2)
    | none => ((i, none), f2)

/-- Shared tail of `Seek`: bounds-check and set the new offset. -/
def memFile.seekTo (f : memFile) (ridx : Int) : Except MemErr (Int × memFile) :=
  if ridx < 0 || (f.file.content.length : Int) < ridx then
    .error (fsPathError "seek" f.name .invalid)
  else .ok (ridx, { f with ridx := ridx })

/-- `Seek(offset, whence)` on a file handle (whence 0/1/2 =
start/current/end). -/
def memFile.Seek (f : memFile) (offset : Int) (whence : Nat) :
    Except MemErr (Int × memFile) :=
  if f.isClosed then .error (fsPathError "seek" f.name .closed)
  else
    let data := f.file.content
    match whence with
    | 0 => memFile.seekTo f offset
    | 1 => memFile.seekTo f (f.ridx + offset)
    | 2 => memFile.seekTo f ((data.length : Int) + offset)
    | _ => .error (fsPathError "seek" f.name .invalid)

/-- `memDir`: a synthetic directory entry; identity is the full directory
path plus the start index of its own name inside it. -/
structure memDir where
  rootpath : Str
  pidx : Nat
deriving DecidableEq, Repr

/-- `makeRootDir` builds the synthetic entry for a directory rootpath
(`pidx = strings.LastIndexByte(rootpath[:len-1], '/') + 1`). -/
def makeRootDir (rootpath : Str) : memDir :=
  if rootpath.isEmpty then { rootpath := [], pidx := 0 }
  else { rootpath := rootpath, pidx := lastSepEnd rootpath.dropLast }

/-- `Name()` of a synthetic directory: its own segment without the trailing
separator, or "." at the root. -/
def memDir.dname (d : memDir) : Str :=
  let ns := nextSegment (d.rootpath.drop d.pidx)
  if ns.isEmpty then [46] else ns.dropLast

/-- A `memDir` always reports itself as a directory. -/
def memDir.isDirInfo (_ : memDir) : Bool := true

/-- A `memDir` reports size 0. -/
def memDir.size (_ : memDir) : Int := 0

/-- A `memDir` reports the fixed directory mode bits. -/
def memDir.mode (_ : memDir) : Nat := modeDir

/-- The store: an ordered sequence of entries sorted ascending by name plus
an optional rootpath prefix (ending in "/" when nonempty). -/
structure memFS where
  files : List MEntry
  rootpath : Str := []
deriving DecidableEq, Repr

/-- Iterator state of `dirEntries`: last added child segment and the next
scan offset into `files` (negative once the directory handle is closed). -/
structure dirCursor where
  prev : Str := []
  idx : Int := 0
deriving DecidableEq, Repr

/-- A DirEntry produced by directory iteration: either a synthetic
directory or a file handle. -/
inductive MemDirEntry where
  | dirE (d : memDir)
  | fileE (f : memFile)
deriving DecidableEq, Repr

/-- Result of internal path resolution: a file or a sub-store view. -/
inductive OpenRes where
  | file (f : memFile)
  | dir (d : memFS)
deriving DecidableEq, Repr

/-- A FileInfo returned by `Stat`. -/
inductive MFileInfo where
  | fileInfo (f : memFile)
  | dirInfo (d : memDir)
deriving DecidableEq, Repr

/-- The entry order used by the stable sort: ascending by name. -/
def entLe (a b : MEntry) : Prop := strLe a.name b.name = true

instance : DecidableRel entLe := fun a b => instDecidableEqBool _ _


/-- The duplicate/collision scan MakeMemFS folds over the walk emissions:
`pn` is the previously emitted path (initially "").  A repeated path, or a
directory emission whose body equals the previous path, latches the error.
(For an emitted "" with `pn ≠ ""` Go would slice-panic; that situation is
unreachable on sorted input, where "" can only be emitted first.) -/
def scanList (pn : Str) : List Str → Bool
  | [] => false
  | r :: rest =>
    if pn == r then true
    else if isDir r && r.dropLast == pn then true
    else scanList r rest

/-- Construction error cases of `MakeMemFS` (the three `errors.New` calls). -/
inductive MakeErr where
  | dirWithContent (n : Str)
  | badName (n : Str)
  | dupe
deriving DecidableEq, Repr

/-- The per-entry validation loop of `MakeMemFS`: first offending entry
wins, content-bearing directory markers checked before name validity. -/
def validateFiles : List MEntry → Option MakeErr
  | [] => none
  | f :: rest =>
    if isDir f.name && !f.content.isEmpty then some (.dirWithContent f.name)
    else if !validPath f.name then some (.badName f.name)
    else validateFiles rest

/-- `MakeMemFS`: validate every entry, return directly for 0 or 1 entries,
otherwise stable-sort by name (`slices.SortStableFunc`, modelled by the
stable insertion sort; success never depends on the order among equal
names, which always fail the scan) and run the duplicate scan over
`walk`. -/
def MakeMemFS (files : List MEntry) : Except MakeErr memFS :=
  match validateFiles files with
  | some e => .error e
  | none =>
    if files.length ≤ 1 then .ok { files := files }
    else
      if scanList [] (walk [] (files.insertionSort entLe)) then
        .error .dupe
      else .ok { files := files.insertionSort entLe }

/-- `root` resolves a public name against the store's rootpath
("." mapping to the rootpath itself). -/
def memFS.root (m : memFS) (path : Str) : Str :=
  if path == [46] then m.rootpath else m.rootpath ++ path

/-- `rootdir` resolves a public name to a directory path. -/
def memFS.rootdir (m : memFS) (path : Str) : Str := toDir (m.root path)

/-- `find` models `slices.BinarySearchFunc` through its documented contract
on the sorted `files` sequence: the smallest index whose entry name is not
below the target (equivalently the number of entries below it), plus
whether the entry there matches exactly.  `idx ∈ [0, len]`. -/
def memFS.find (m : memFS) (rootpath : Str) : Nat × Bool :=
  let idx := (m.files.takeWhile (fun f => strLt f.name rootpath)).length
  match m.files[idx]? with
  | some f => (idx, f.name == rootpath)
  | none => (idx, false)

/-- Go `strings.CutPrefix(s, pre)`. -/
def cutPref (s pre : Str) : Option Str :=
  if List.isPrefixOf pre s then some (s.drop pre.length) else none

/-- The internal `open`: "" resolves to the store itself, an exact match to
a file handle, a strict-prefix hit to a sub-range view with rootpath
`toDir path`, anything else to ErrNotExist.  (Go's `m.files[low:high]`
would panic for `high < low`; on the sorted stores this never happens and
the model's `take (high - low)` then agrees.) -/
def memFS.openPath (m : memFS) (rootpath : Str) : Except FsErr OpenRes :=
  if rootpath == [] then .ok (.dir m)
  else
    if (m.find rootpath).2 then
      .ok (.file (makeFile (m.files.getD (m.find rootpath).1 default)))
    else if m.files.length ≤ (m.find rootpath).1
        || !(List.isPrefixOf rootpath (m.files.getD (m.find rootpath).1 default).name) then
      .error .notExist
    else
      .ok (.dir { files := (m.files.drop (m.find rootpath).1).take
                    ((match increment rootpath with
                      | some inc => (m.find inc).1
                      | none => m.files.length) - (m.find rootpath).1)
                  rootpath := toDir rootpath })

/-- `Sub(dir)`: invalid resolved directory paths are rejected with
ErrInvalid; anything not resolving to a directory with ErrNotExist. -/
def memFS.Sub (m : memFS) (dir : Str) : Except MemErr memFS :=
  let rootdir := m.rootdir dir
  if rootdir != [] && !validPath rootdir then
    .error (fsPathError "sub" dir .invalid)
  else
    match m.openPath rootdir with
    | .ok (.dir d) => .ok d
    | _ => .error (fsPathError "sub" dir .notExist)

/-- The scan-loop body of `dirEntries`, walking the suffix
`m.files.drop idx` structurally (`idx` tracks the absolute offset for the
returned cursor), with `ne` the entry count before the call and `n` the
requested amount. -/
def memFS.deLoopAux (m : memFS) (ne : Nat) (n : Int) (entries : List MemDirEntry)
    (prev : Str) (idx : Nat) : List MEntry → Except MemErr (List MemDirEntry × dirCursor)
  | [] => .ok (entries, ⟨prev, idx⟩)
  | f :: rest =>
    if n > 0 && (entries.length : Int) == (ne : Int) + n then
      .ok (entries, ⟨prev, idx⟩)
    else
      match cutPref f.name m.rootpath with
      | none => .error (.raw .errChangedRoot)
      | some fnrest =>
        let next := nextSegment fnrest
        if prev == next then m.deLoopAux ne n entries prev (idx + 1) rest
        else if isDir next then
          m.deLoopAux ne n
            (entries ++ [.dirE { rootpath := f.name.take (m.rootpath.length + next.length)
                                 pidx := m.rootpath.length }])
            next (idx + 1) rest
        else m.deLoopAux ne n (entries ++ [.fileE (makeFile f)]) next (idx + 1) rest

/-- The scan loop of `dirEntries` from absolute offset `idx`. -/
def memFS.deLoop (m : memFS) (ne : Nat) (n : Int) (entries : List MemDirEntry)
    (prev : Str) (idx : Nat) : Except MemErr (List MemDirEntry × dirCursor) :=
  m.deLoopAux ne n entries prev idx (m.files.drop idx)

/-- `dirEntries` appends DirEntrys to `entries` starting at `dc.idx`,
handling `n` like `fs.ReadDirFile.ReadDir`: strict-positive `n` caps the
batch and signals exhaustion with bare `io.EOF`; `n ≤ 0` returns whatever
remains without error. -/
def memFS.dirEntries (m : memFS) (entries : List MemDirEntry) (dc : dirCursor)
    (n : Int) : Except MemErr (List MemDirEntry × dirCursor) :=
  if dc.idx < 0 || (m.files.length : Int) < dc.idx then .error (.raw .invalid)
  else if dc.idx == (m.files.length : Int) then
    if n ≤ 0 then .ok ([], { idx := dc.idx })
    else .error (.raw .eof)
  else m.deLoop entries.length n entries dc.prev dc.idx.toNat

/-- A directory handle: a sub-store view plus the iteration cursor
(closed once `dc.idx < 0`). -/
structure memReadableDir where
  fs : memFS
  dc : dirCursor := {}
deriving DecidableEq, Repr

/-- Closed sentinel of a directory handle. -/
def memReadableDir.closed (d : memReadableDir) : Bool := d.dc.idx < 0

/-- `cwd` retrieves the name of the handle's own directory. -/
def memReadableDir.cwd (d : memReadableDir) : Str :=
  let n := d.fs.rootpath
  if n == [] then [46]
  else
    let n2 := n.dropLast
    n2.drop (lastSepEnd n2)

/-- `Stat` on a directory handle. -/
def memReadableDir.Stat (d : memReadableDir) : Except MemErr memDir :=
  if d.closed then .error (memPathError "stat" d.cwd .errStatClosed)
  else .ok (makeRootDir d.fs.rootpath)

/-- `Read` on a directory handle always fails: closed first, then EISDIR. -/
def memReadableDir.Read (d : memReadableDir) : Nat × MemErr :=
  if d.closed then (0, memPathError "read" d.cwd .errClosed)
  else (0, memPathError "read" d.cwd .eisdir)

/-- `Seek` on a non-closed directory handle resets ReadDir and returns 0. -/
def memReadableDir.Seek (d : memReadableDir) (_offset : Int) (_whence : Nat) :
    Except MemErr (Int × memReadableDir) :=
  if d.closed then .error (memPathError "seek" d.cwd .errClosed)
  else .ok (0, { d with dc := {} })

/-- `Close` on a directory handle polices double close. -/
def memReadableDir.Close (d : memReadableDir) : Except MemErr memReadableDir :=
  if d.closed then .error (memPathError "close" d.cwd .errClosed)
  else .ok { d with dc := { idx := -1 } }

/-- `ReadDir(n)` on a directory handle: delegates to `dirEntries`,
persisting the cursor only on success. -/
def memReadableDir.ReadDir (d : memReadableDir) (n : Int) :
    Except MemErr (List MemDirEntry × memReadableDir) :=
  if d.closed then .error (memPathError "readdir" d.cwd .errClosed)
  else
    match d.fs.dirEntries [] d.dc n with
    | .error e => .error e
    | .ok (de, dc2) => .ok (de, { d with dc := dc2 })

/-- A handle returned by `Open`. -/
inductive Handle where
  | file (f : memFile)
  | dir (d : memReadableDir)
deriving DecidableEq, Repr

/-- `Open(name)`: resolve and wrap into a file or directory handle. -/
def memFS.Open (m : memFS) (name : Str) : Except MemErr Handle :=
  match m.openPath (m.root name) with
  | .error e => .error (fsPathError "open" name e)
  | .ok (.dir d) => .ok (.dir { fs := d })
  | .ok (.file f) => .ok (.file f)

/-- `Stat(name)`: file handles stat themselves, directories get a
synthetic root entry. -/
def memFS.Stat (m : memFS) (name : Str) : Except MemErr MFileInfo :=
  match m.openPath (m.root name) with
  | .error e => .error (fsPathError "stat" name e)
  | .ok (.dir d) => .ok (.dirInfo (makeRootDir d.rootpath))
  | .ok (.file f) => .ok (.fileInfo f)

/-- `ReadFile(name)`: the full content of a file, NotExist for
anything that does not resolve to one. -/
def memFS.ReadFile (m : memFS) (name : Str) : Except MemErr Str :=
  match m.openPath (m.root name) with
  | .ok (.file f) => .ok f.file.content
  | _ => .error (fsPathError "readfile" name .notExist)

/-- `ReadDir(name)` on the store: all entries of the directory. -/
def memFS.ReadDir (m : memFS) (name : Str) : Except MemErr (List MemDirEntry) :=
  match m.openPath (m.root name) with
  | .ok (.dir d) =>
    (match d.dirEntries [] {} 0 with
     | .error e => .error e
     | .ok (de, _) => .ok de)
  | _ => .error (fsPathError "readdir" name .notExist)

/-- Lookup success implies the index is in bounds. -/
theorem getElem?_some_lt {α : Type} {l : List α} {i : Nat} {a : α}
    (h : l[i]? = some a) : i < l.length := by
  by_contra hc
  push_neg at hc
  rw [List.getElem?_eq_none hc] at h
  exact Option.noConfusion h

/-- Go `utf8.DecodeRuneInString` over bytes: the decoded rune and its
size; `(RuneError, 0)` on empty input, `(RuneError, 1)` on invalid
encodings. -/
def decodeRune : Str → Nat × Nat
  | [] => (65533, 0)
  | b :: rest =>
    if b ≤ 127 then (b, 1)
    else if 194 ≤ b && b ≤ 223 then
      match rest with
      | b1 :: _ =>
        if utf8Cont b1 then ((b - 192) * 64 + (b1 - 128), 2) else (65533, 1)
      | [] => (65533, 1)
    else if b == 224 then
      match rest with
      | b1 :: b2 :: _ =>
        if (160 ≤ b1 && b1 ≤ 191) && utf8Cont b2 then
          ((b - 224) * 4096 + (b1 - 128) * 64 + (b2 - 128), 3)
        else (65533, 1)
      | _ => (65533, 1)
    else if 225 ≤ b && b ≤ 236 then
      match rest with
      | b1 :: b2 :: _ =>
        if utf8Cont b1 && utf8Cont b2 then
          ((b - 224) * 4096 + (b1 - 128) * 64 + (b2 - 128), 3)
        else (65533, 1)
      | _ => (65533, 1)
    else if b == 237 then
      match rest with
      | b1 :: b2 :: _ =>
        if (128 ≤ b1 && b1 ≤ 159) && utf8Cont b2 then
          ((b - 224) * 4096 + (b1 - 128) * 64 + (b2 - 128), 3)
        else (65533, 1)
      | _ => (65533, 1)
    else if 238 ≤ b && b ≤ 239 then
      match rest with
      | b1 :: b2 :: _ =>
        if utf8Cont b1 && utf8Cont b2 then
          ((b - 224) * 4096 + (b1 - 128) * 64 + (b2 - 128), 3)
        else (65533, 1)
      | _ => (65533, 1)
    else if b == 240 then
      match rest with
      | b1 :: b2 :: b3 :: _ =>
        if (144 ≤ b1 && b1 ≤ 191) && utf8Cont b2 && utf8Cont b3 then
          ((b - 240) * 262144 + (b1 - 128) * 4096 + (b2 - 128) * 64 + (b3 - 128), 4)
        else (65533, 1)
      | _ => (65533, 1)
    else if 241 ≤ b && b ≤ 243 then
      match rest with
      | b1 :: b2 :: b3 :: _ =>
        if utf8Cont b1 && utf8Cont b2 && utf8Cont b3 then
          ((b - 240) * 262144 + (b1 - 128) * 4096 + (b2 - 128) * 64 + (b3 - 128), 4)
        else (65533, 1)
      | _ => (65533, 1)
    else if b == 244 then
      match rest with
      | b1 :: b2 :: b3 :: _ =>
        if (128 ≤ b1 && b1 ≤ 143) && utf8Cont b2 && utf8Cont b3 then
          ((b - 240) * 262144 + (b1 - 128) * 4096 + (b2 - 128) * 64 + (b3 - 128), 4)
        else (65533, 1)
      | _ => (65533, 1)
    else (65533, 1)

set_option maxHeartbeats 1000000 in
/-- Decoding a nonempty string always consumes at least one byte. -/
theorem decodeRune_pos {s : Str} (h : s ≠ []) : 1 ≤ (decodeRune s).2 := by
  rcases s with _ | ⟨b, _ | ⟨b1, _ | ⟨b2, _ | ⟨b3, r3⟩⟩⟩⟩
  · exact absurd rfl h
  all_goals
    rcases hE : decodeRune _ with ⟨r, n⟩
    show 1 ≤ n
    simp only [decodeRune] at hE
    by_cases h1 : b ≤ 127
    · rw [if_pos h1] at hE; injection hE with ha hb; omega
    · rw [if_neg h1] at hE
      by_cases h2 : (194 ≤ b && b ≤ 223) = true
      · rw [if_pos h2] at hE
        (first | (split at hE <;> (injection hE with ha hb; omega)) | (injection hE with ha hb; omega))
      · rw [if_neg h2] at hE
        by_cases h3 : (b == 224) = true
        · rw [if_pos h3] at hE
          (first | (split at hE <;> (injection hE with ha hb; omega)) | (injection hE with ha hb; omega))
        · rw [if_neg h3] at hE
          by_cases h4 : (225 ≤ b && b ≤ 236) = true
          · rw [if_pos h4] at hE
            (first | (split at hE <;> (injection hE with ha hb; omega)) | (injection hE with ha hb; omega))
          · rw [if_neg h4] at hE
            by_cases h5 : (b == 237) = true
            · rw [if_pos h5] at hE
              (first | (split at hE <;> (injection hE with ha hb; omega)) | (injection hE with ha hb; omega))
            · rw [if_neg h5] at hE
              by_cases h6 : (238 ≤ b && b ≤ 239) = true
              · rw [if_pos h6] at hE
                (first | (split at hE <;> (injection hE with ha hb; omega)) | (injection hE with ha hb; omega))
              · rw [if_neg h6] at hE
                by_cases h7 : (b == 240) = true
                · rw [if_pos h7] at hE
                  (first | (split at hE <;> (injection hE with ha hb; omega)) | (injection hE with ha hb; omega))
                · rw [if_neg h7] at hE
                  by_cases h8 : (241 ≤ b && b ≤ 243) = true
                  · rw [if_pos h8] at hE
                    (first | (split at hE <;> (injection hE with ha hb; omega)) | (injection hE with ha hb; omega))
                  · rw [if_neg h8] at hE
                    by_cases h9 : (b == 244) = true
                    · rw [if_pos h9] at hE
                      (first | (split at hE <;> (injection hE with ha hb; omega)) | (injection hE with ha hb; omega))
                    · rw [if_neg h9] at hE
                      injection hE with ha hb; omega


/-- Go `getEsc`: a possibly-escaped character from a character class. -/
def getEsc (chunk : Str) : Except Unit (Nat × Str) :=
  match chunk with
  | [] => .error ()
  | c :: _ =>
    if c == 45 || c == 93 then .error ()
    else
      let chunk2 := if c == 92 then chunk.drop 1 else chunk
      if chunk2.isEmpty then .error ()
      else
        let rn := decodeRune chunk2
        if rn.1 == 65533 && rn.2 == 1 then .error ()
        else
          let nchunk := chunk2.drop rn.2
          if nchunk.isEmpty then .error () else .ok (rn.1, nchunk)

/-- A successful `getEsc` strictly shrinks the chunk. -/
theorem getEsc_shrink {chunk nchunk : Str} {r : Nat}
    (h : getEsc chunk = .ok (r, nchunk)) : nchunk.length < chunk.length := by
  rcases chunk with _ | ⟨c, cs⟩
  · simp [getEsc] at h
  · simp only [getEsc] at h
    split at h
    · exact Except.noConfusion h
    · set chunk2 := if c == 92 then (c :: cs).drop 1 else c :: cs with h2
      by_cases he : chunk2.isEmpty
      · simp [← h2, he] at h
      · simp only [← h2, he, Bool.false_eq_true, if_false] at h
        split at h
        · exact Except.noConfusion h
        · split at h
          · exact Except.noConfusion h
          · have hpos : 1 ≤ (decodeRune chunk2).2 := by
              apply decodeRune_pos
              intro hx
              rw [hx] at he
              simp [List.isEmpty] at he
            have hle : chunk2.length ≤ (c :: cs).length := by
              rw [h2]
              split
              · simp
              · simp
            injection h with h
            injection h with h1 hnc
            subst hnc
            have : (chunk2.drop (decodeRune chunk2).2).length
                = chunk2.length - (decodeRune chunk2).2 := List.length_drop _ _
            rcases chunk2 with _ | ⟨d, ds⟩
            · simp [List.isEmpty] at he
            · simp only [List.length_drop] at *
              simp only [List.length_cons] at *
              omega

/-- The range-parsing loop inside `matchChunk`'s character-class case:
consumes ranges from the chunk until the closing "]", reporting whether
rune `r` fell inside any range. -/
def rangeLoop (chunk : Str) (r : Nat) (nrange : Nat) (mtch : Bool) :
    Except Unit (Str × Bool) :=
  if nrange > 0 && chunk.head? == some 93 then .ok (chunk.drop 1, mtch)
  else
    match h1 : getEsc chunk with
    | .error _ => .error ()
    | .ok (lo, chunk1) =>
      if chunk1.head? == some 45 then
        match h2 : getEsc (chunk1.drop 1) with
        | .error _ => .error ()
        | .ok (hi, chunk2) =>
          rangeLoop chunk2 r (nrange + 1) (mtch || (lo ≤ r && r ≤ hi))
      else rangeLoop chunk1 r (nrange + 1) (mtch || (lo ≤ r && r ≤ lo))
termination_by chunk.length
decreasing_by
  · have ha := getEsc_shrink h1
    have hb := getEsc_shrink h2
    have : (chunk1.drop 1).length ≤ chunk1.length := by
      simp [List.length_drop]
    omega
  · exact getEsc_shrink h1

/-- Bounded-length helper for `rangeLoop_shrink`. -/
theorem rangeLoop_shrink_aux : ∀ (k : Nat) (chunk : Str), chunk.length ≤ k →
    ∀ (r n : Nat) (m : Bool) (c2 : Str) (m2 : Bool),
    rangeLoop chunk r n m = .ok (c2, m2) → c2.length < chunk.length := by
  intro k
  induction k with
  | zero =>
    intro chunk hlen r n m c2 m2 h
    have : chunk = [] := by
      rcases chunk with _ | ⟨c, cs⟩
      · rfl
      · simp at hlen
    subst this
    rw [rangeLoop] at h
    simp [getEsc] at h
  | succ k ih =>
    intro chunk hlen r n m c2 m2 h
    rw [rangeLoop] at h
    split at h
    · next hcl =>
      injection h with h
      injection h with h1 h2
      subst h1
      rcases chunk with _ | ⟨c, cs⟩
      · simp at hcl
      · simp
    · next hcl =>
      split at h
      · simp at h
      · next lo chunk1 heq1 =>
        have s1 := getEsc_shrink heq1
        split at h
        · next hd =>
          split at h
          · simp at h
          · next hi chunk2 heq2 =>
            have s2 := getEsc_shrink heq2
            have h1le : (chunk1.drop 1).length ≤ chunk1.length := by
              simp [List.length_drop]
            have := ih chunk2 (by omega) r (n + 1) _ c2 m2 h
            omega
        · next hd =>
          have := ih chunk1 (by omega) r (n + 1) _ c2 m2 h
          omega

/-- A successful `rangeLoop` strictly shrinks the chunk. -/
theorem rangeLoop_shrink {chunk c2 : Str} {r n : Nat} {m m2 : Bool}
    (h : rangeLoop chunk r n m = .ok (c2, m2)) : c2.length < chunk.length :=
  rangeLoop_shrink_aux chunk.length chunk (Nat.le_refl _) r n m c2 m2 h

/-- The possibly-negated start of a character class: strips a leading "^"
and reports whether it was there. -/
def classChunk (ctail : Str) : Bool × Str :=
  if ctail.head? == some 94 then (true, ctail.drop 1) else (false, ctail)

/-- `classChunk` never grows the chunk. -/
theorem classChunk_len (l : Str) : (classChunk l).2.length ≤ l.length := by
  simp only [classChunk]
  split
  · simp [List.length_drop]
  · exact Nat.le_refl _

/-- Go `matchChunk(chunk, s)`: matches the chunk (single-character
operators: literals, classes, "?") against the beginning of `s`;
`some rest` on success, `none` on a failed match, `.error` on a bad
pattern.  `failed` records a mismatch while syntax checking continues. -/
def matchChunk (chunk s : Str) (failed : Bool) : Except Unit (Option Str) :=
  match chunk with
  | [] => if failed then .ok none else .ok (some s)
  | c :: ctail =>
    let failed1 := failed || s.isEmpty
    if c == 91 then
      let rs := if failed1 then (0, s) else
        let d := decodeRune s
        (d.1, s.drop d.2)
      match hr : rangeLoop (classChunk ctail).2 rs.1 0 false with
      | .error _ => .error ()
      | .ok (chunk3, mtch) =>
        matchChunk chunk3 rs.2 (failed1 || (mtch == (classChunk ctail).1))
    else if c == 63 then
      if failed1 then matchChunk ctail s failed1
      else
        let failed2 := failed1 || (s.head? == some sep)
        matchChunk ctail (s.drop (decodeRune s).2) failed2
    else if c == 92 then
      match ctail with
      | [] => .error ()
      | e :: etail =>
        if failed1 then matchChunk etail s failed1
        else matchChunk etail (s.drop 1) (failed1 || !(some e == s.head?))
    else
      if failed1 then matchChunk ctail s failed1
      else matchChunk ctail (s.drop 1) (failed1 || !(some c == s.head?))
termination_by chunk.length
decreasing_by
  · have hs := rangeLoop_shrink hr
    simp only [List.length_cons]
    exact Nat.lt_succ_of_le (Nat.le_of_lt (Nat.lt_of_lt_of_le hs (classChunk_len _)))
  · simp
  · simp
  · simp [List.length_cons]
    omega
  · simp [List.length_cons]
    omega
  · simp
  · simp

/-- Leading-star stripping of `scanChunk`: reports whether any "*" was
consumed. -/
def stripStars : Str → Bool × Str
  | [] => (false, [])
  | c :: rest => if c == 42 then (true, (stripStars rest).2) else (false, c :: rest)

/-- The chunk-scanning loop of `scanChunk`, walking the pattern suffix
structurally (`i` is the absolute index of the suffix head): the index
where the current chunk ends (an unescaped "*" outside a character
class), tracking escapes and ranges.  An escape as the last byte consumes
it (Go increments once more and exits the loop). -/
def scanChunkLoop (i : Nat) (inrange : Bool) : Str → Nat
  | [] => i
  | c :: rest =>
    if c == 92 then
      match rest with
      | [] => i + 1
      | _ :: rest2 => scanChunkLoop (i + 2) inrange rest2
    else if c == 91 then scanChunkLoop (i + 1) true rest
    else if c == 93 then scanChunkLoop (i + 1) false rest
    else if c == 42 then
      if inrange then scanChunkLoop (i + 1) inrange rest else i
    else scanChunkLoop (i + 1) inrange rest

/-- Go `scanChunk`: the next segment of the pattern — a non-star chunk
possibly preceded by stars, plus the rest. -/
def scanChunk (pattern : Str) : Bool × Str × Str :=
  let ss := stripStars pattern
  let i := scanChunkLoop 0 false ss.2
  (ss.1, ss.2.take i, ss.2.drop i)

/-- `scanChunkLoop` never moves backwards. -/
theorem scanChunkLoop_ge : ∀ (l : Str) (i : Nat) (inr : Bool),
    i ≤ scanChunkLoop i inr l := by
  suffices H : ∀ (k : Nat) (l : Str), l.length ≤ k → ∀ (i : Nat) (inr : Bool),
      i ≤ scanChunkLoop i inr l by
    intro l i inr
    exact H l.length l (Nat.le_refl _) i inr
  intro k
  induction k with
  | zero =>
    intro l hl i inr
    have : l = [] := by
      rcases l with _ | _
      · rfl
      · simp at hl
    subst this
    exact Nat.le_refl _
  | succ k ih =>
    intro l hl i inr
    rcases l with _ | ⟨c, rest⟩
    · exact Nat.le_refl _
    · rcases rest with _ | ⟨d, rest2⟩
      · rw [scanChunkLoop.eq_2]
        repeat' split
        all_goals (try simp only [scanChunkLoop.eq_1])
        all_goals omega
      · simp only [List.length_cons] at hl
        have h2 : rest2.length ≤ k := by omega
        have h1 : (d :: rest2).length ≤ k := by
          simp only [List.length_cons]
          omega
        rw [scanChunkLoop.eq_3]
        split
        · have := ih rest2 h2 (i + 2) inr
          omega
        · split
          · have := ih (d :: rest2) h1 (i + 1) true
            omega
          · split
            · have := ih (d :: rest2) h1 (i + 1) false
              omega
            · split
              · split
                · have := ih (d :: rest2) h1 (i + 1) inr
                  omega
                · exact Nat.le_refl _
              · have := ih (d :: rest2) h1 (i + 1) inr
                omega

/-- Star stripping never grows the pattern. -/
theorem stripStars_le (p : Str) : (stripStars p).2.length ≤ p.length := by
  induction p with
  | nil => simp [stripStars]
  | cons c rest ih =>
    by_cases hc : (c == 42) = true
    · simp only [stripStars, if_pos hc]
      simp only [List.length_cons]
      omega
    · simp only [stripStars, if_neg hc]
      exact Nat.le_refl _

/-- Star stripping strictly shrinks when it strips. -/
theorem stripStars_lt {p : Str} (h : (stripStars p).1 = true) :
    (stripStars p).2.length < p.length := by
  rcases p with _ | ⟨c, rest⟩
  · simp [stripStars] at h
  · by_cases hc : (c == 42) = true
    · simp only [stripStars, if_pos hc]
      have := stripStars_le rest
      simp only [List.length_cons]
      omega
    · simp only [stripStars, if_neg hc] at h
      simp at h

/-- When nothing is stripped, the pattern is returned whole and does not
start with a star. -/
theorem stripStars_false {p : Str} (h : (stripStars p).1 = false) :
    (stripStars p).2 = p ∧ p.head? ≠ some 42 := by
  rcases p with _ | ⟨c, rest⟩
  · simp [stripStars]
  · by_cases hc : (c == 42) = true
    · simp only [stripStars, if_pos hc] at h
      simp at h
    · simp only [stripStars, if_neg hc]
      refine ⟨trivial, ?_⟩
      simp only [List.head?_cons]
      intro hx
      injection hx with hx
      simp [hx] at hc

/-- `scanChunk` strictly shrinks a nonempty pattern. -/
theorem scanChunk_shrink {p : Str} (h : p ≠ []) :
    (scanChunk p).2.2.length < p.length := by
  simp only [scanChunk]
  cases hs : (stripStars p).1 with
  | true =>
    have hlt := stripStars_lt hs
    simp only [List.length_drop]
    omega
  | false =>
    obtain ⟨heq, hhd⟩ := stripStars_false hs
    rw [heq]
    have hpos : 1 ≤ scanChunkLoop 0 false p := by
      rcases p with _ | ⟨c, rest⟩
      · exact absurd rfl h
      · have hc42 : ¬(c == 42) = true := by
          intro hx
          apply hhd
          simp only [List.head?_cons]
          simp at hx
          rw [hx]
        rcases rest with _ | ⟨d, rest2⟩
        · rw [scanChunkLoop.eq_2]
          repeat' split
          all_goals (try simp only [scanChunkLoop.eq_1])
          all_goals first
            | omega
            | exact absurd (by assumption) hc42
        · rw [scanChunkLoop.eq_3]
          split
          · have := scanChunkLoop_ge rest2 (0 + 2) false
            omega
          · split
            · have := scanChunkLoop_ge (d :: rest2) (0 + 1) true
              omega
            · split
              · have := scanChunkLoop_ge (d :: rest2) (0 + 1) false
                omega
              · have := scanChunkLoop_ge (d :: rest2) (0 + 1) false
                omega
    have hlen : p.length ≠ 0 := by
      rcases p with _ | _
      · exact absurd rfl h
      · simp
    simp only [List.length_drop]
    omega

/-- The star-skip loop of `Match`, walking the name suffix structurally:
tries the chunk after skipping one more byte each round, never skipping a
separator; `some t` resumes the outer loop.  (Go indexes `name[i]` and
matches against `name[i+1:]`; here the suffix IS the slice at `i`.) -/
def starLoop (chunk pattern : Str) : Str → Except Unit (Option Str)
  | [] => .ok none
  | c :: rest =>
    if c == sep then .ok none
    else
      match matchChunk chunk rest false with
      | .error _ => .error ()
      | .ok (some t) =>
        if pattern == [] && !(t == []) then starLoop chunk pattern rest
        else .ok (some t)
      | .ok none => starLoop chunk pattern rest

/-- The syntactic-validity sweep `Match` performs over the remaining
pattern before returning an errorless false. -/
def chunksValid (pattern : Str) : Except Unit Unit :=
  if hp : pattern == [] then .ok ()
  else
    match matchChunk (scanChunk pattern).2.1 [] false with
    | .error _ => .error ()
    | .ok _ => chunksValid (scanChunk pattern).2.2
termination_by pattern.length
decreasing_by
  exact scanChunk_shrink (by simpa using hp)

/-- Go `path.Match(pattern, name)`: shell pattern matching ("*" not
crossing separators), `.error` for malformed patterns. -/
def matchGo (pattern name : Str) : Except Unit Bool :=
  if hp : pattern == [] then .ok (name == [])
  else
    if (scanChunk pattern).1 && (scanChunk pattern).2.1 == [] then
      .ok (!name.contains sep)
    else
      match matchChunk (scanChunk pattern).2.1 name false with
      | .error _ => .error ()
      | .ok ores =>
        match (match ores with
               | some t =>
                 if t == [] || !((scanChunk pattern).2.2 == []) then some t
                 else none
               | none => none) with
        | some t => matchGo (scanChunk pattern).2.2 t
        | none =>
          if (scanChunk pattern).1 then
            match starLoop (scanChunk pattern).2.1 (scanChunk pattern).2.2 name with
            | .error _ => .error ()
            | .ok (some t) => matchGo (scanChunk pattern).2.2 t
            | .ok none =>
              match chunksValid (scanChunk pattern).2.2 with
              | .error _ => .error ()
              | .ok _ => .ok false
          else
            match chunksValid (scanChunk pattern).2.2 with
            | .error _ => .error ()
            | .ok _ => .ok false
termination_by pattern.length
decreasing_by
  all_goals exact scanChunk_shrink (by simpa using hp)

/-- `Glob(pattern)`: front-loads pattern validation by probing the empty
string, then walks the whole tree collecting the matching public paths in
walk order. -/
def memFS.Glob (m : memFS) (pattern : Str) : Except MemErr (List Str) :=
  match matchGo pattern [] with
  | .error _ => .error (fsPathError "glob" [46] .badPattern)
  | .ok _ =>
    .ok ((walk m.rootpath m.files).filterMap (fun rp =>
      let n := fsPath (rp.drop m.rootpath.length)
      match matchGo pattern n with
      | .ok true => some n
      | _ => none))

/-- Comparison of a string with itself. -/
theorem cmpStr_refl (a : Str) : cmpStr a a = .eq := by
  induction a with
  | nil => rfl
  | cons c cs ih => simp [cmpStr, ih]

/-- `cmpStr` decides equality. -/
theorem cmpStr_eq_iff : ∀ {a b : Str}, cmpStr a b = .eq ↔ a = b := by
  intro a
  induction a with
  | nil =>
    intro b
    rcases b with _ | ⟨d, ds⟩ <;> simp [cmpStr]
  | cons c cs ih =>
    intro b
    rcases b with _ | ⟨d, ds⟩
    · simp [cmpStr]
    · simp only [cmpStr]
      by_cases h1 : c < d
      · simp only [if_pos h1]
        constructor
        · intro hx
          exact Ordering.noConfusion hx
        · intro hx
          injection hx with hx
          omega
      · simp only [if_neg h1]
        by_cases h2 : d < c
        · simp only [if_pos h2]
          constructor
          · intro hx
            exact Ordering.noConfusion hx
          · intro hx
            injection hx with hx
            omega
        · simp only [if_neg h2]
          have hcd : c = d := by omega
          subst hcd
          rw [ih]
          simp

/-- Flipping the arguments flips a strict comparison. -/
theorem cmpStr_swap : ∀ {a b : Str}, cmpStr a b = .lt ↔ cmpStr b a = .gt := by
  intro a
  induction a with
  | nil =>
    intro b
    rcases b with _ | ⟨d, ds⟩ <;> simp [cmpStr]
  | cons c cs ih =>
    intro b
    rcases b with _ | ⟨d, ds⟩
    · simp [cmpStr]
    · simp only [cmpStr]
      by_cases h1 : c < d
      · have h2 : ¬d < c := by omega
        simp [if_pos h1, if_neg h2, h1]
      · by_cases h2 : d < c
        · simp [if_neg h1, if_pos h2, h2]
        · simp only [if_neg h1, if_neg h2]
          exact ih

/-- Transitivity of the strict comparison. -/
theorem cmpStr_lt_trans : ∀ {a b c : Str},
    cmpStr a b = .lt → cmpStr b c = .lt → cmpStr a c = .lt := by
  intro a
  induction a with
  | nil =>
    intro b c hab hbc
    rcases c with _ | ⟨e, es⟩
    · rcases b with _ | ⟨d, ds⟩
      · exact hab
      · simp [cmpStr] at hbc
    · simp [cmpStr]
  | cons x xs ih =>
    intro b c hab hbc
    rcases b with _ | ⟨d, ds⟩
    · simp [cmpStr] at hab
    · rcases c with _ | ⟨e, es⟩
      · simp [cmpStr] at hbc
      · simp only [cmpStr] at *
        by_cases h1 : x < d
        · by_cases h2 : d < e
          · have hxe : x < e := by omega
            simp [if_pos hxe]
          · split at hbc
            · omega
            · split at hbc
              · exact Ordering.noConfusion hbc
              · have : d = e := by omega
                subst this
                simp [if_pos h1]
        · split at hab
          · omega
          · split at hab
            · exact Ordering.noConfusion hab
            · have : x = d := by omega
              subst this
              by_cases h2 : x < e
              · simp [if_pos h2]
              · split at hbc
                · omega
                · split at hbc
                  · exact Ordering.noConfusion hbc
                  · have : x = e := by omega
                    subst this
                    simp only [if_neg h2]
                    exact ih hab hbc

/-- Boolean comparison helpers on `Ordering` used by `strLt`/`strLe`. -/
@[simp] theorem ord_lt_bne_gt : (Ordering.lt != Ordering.gt) = true := by decide

@[simp] theorem ord_eq_bne_gt : (Ordering.eq != Ordering.gt) = true := by decide

@[simp] theorem ord_gt_bne_gt : (Ordering.gt != Ordering.gt) = false := by decide

@[simp] theorem ord_lt_beq_lt : (Ordering.lt == Ordering.lt) = true := by decide

@[simp] theorem ord_eq_beq_lt : (Ordering.eq == Ordering.lt) = false := by decide

@[simp] theorem ord_gt_beq_lt : (Ordering.gt == Ordering.lt) = false := by decide

/-- `strLt` unfolded to the comparison. -/
theorem strLt_iff {a b : Str} : strLt a b = true ↔ cmpStr a b = .lt := by
  rcases hc : cmpStr a b with _ | _ | _ <;> simp [strLt, hc]

/-- `strLe` holds exactly for smaller-or-equal strings. -/
theorem strLe_iff {a b : Str} : strLe a b = true ↔ (cmpStr a b = .lt ∨ a = b) := by
  rcases hc : cmpStr a b with _ | _ | _
  · simp [strLe, hc]
  · have := cmpStr_eq_iff.mp hc
    subst this
    simp [strLe, cmpStr_refl]
  · simp only [strLe, hc, ord_gt_bne_gt]
    constructor
    · intro hx
      exact Bool.noConfusion hx
    · intro hx
      rcases hx with hx | hx
      · exact Ordering.noConfusion hx
      · subst hx
        rw [cmpStr_refl] at hc
        exact Ordering.noConfusion hc

/-- Strings are never strictly below themselves. -/
theorem strLt_irrefl (a : Str) : strLt a a = false := by
  simp [strLt, cmpStr_refl]

/-- `strLe` is reflexive. -/
theorem strLe_refl (a : Str) : strLe a a = true := by
  simp [strLe, cmpStr_refl]

/-- `strLe` is transitive. -/
theorem strLe_trans {a b c : Str} (h1 : strLe a b = true)
    (h2 : strLe b c = true) : strLe a c = true := by
  rw [strLe_iff] at *
  rcases h1 with h1 | h1
  · rcases h2 with h2 | h2
    · exact Or.inl (cmpStr_lt_trans h1 h2)
    · subst h2
      exact Or.inl h1
  · subst h1
    exact h2

/-- `strLe` is total. -/
theorem strLe_total (a b : Str) : (strLe a b || strLe b a) = true := by
  rcases hc : cmpStr a b with _ | _ | _
  · simp [strLe, hc]
  · have := cmpStr_eq_iff.mp hc
    subst this
    simp [strLe_refl]
  · have : cmpStr b a = .lt := by
      rw [cmpStr_swap]
      exact hc
    simp [strLe, this]

/-- Below-or-equal but different means strictly below. -/
theorem strLt_of_le_ne {a b : Str} (h1 : strLe a b = true) (h2 : a ≠ b) :
    strLt a b = true := by
  rw [strLe_iff] at h1
  rcases h1 with h1 | h1
  · simp [strLt, h1]
  · exact absurd h1 h2

/-- Strictly below implies below-or-equal. -/
theorem strLe_of_lt {a b : Str} (h : strLt a b = true) : strLe a b = true := by
  rw [strLt_iff] at h
  rw [strLe_iff]
  exact Or.inl h

/-- Strict order excludes equality. -/
theorem strLt_ne {a b : Str} (h : strLt a b = true) : a ≠ b := by
  intro hx
  subst hx
  rw [strLt_irrefl] at h
  exact Bool.noConfusion h

/-- Strictness is asymmetric: not below when the other way is below-or-equal. -/
theorem strLt_not_of_le {a b : Str} (h : strLe a b = true) :
    strLt b a = false := by
  rw [strLe_iff] at h
  rcases h with h | h
  · have : cmpStr b a = .gt := cmpStr_swap.mp h
    simp [strLt, this]
  · subst h
    exact strLt_irrefl a

instance : IsTotal MEntry entLe :=
  ⟨fun a b => by
    have h := strLe_total a.name b.name
    rcases Bool.or_eq_true_iff.mp h with h | h
    · exact Or.inl h
    · exact Or.inr h⟩

instance : IsTrans MEntry entLe := ⟨fun a b c => strLe_trans⟩

/-- The store invariant: entries ascending by name. -/
def SortedLe (fs : List MEntry) : Prop :=
  List.Pairwise entLe fs

/-- A successful build is sorted (trivially so for 0 or 1 entries). -/
theorem MakeMemFS_sorted {files : List MEntry} {m : memFS}
    (h : MakeMemFS files = .ok m) : SortedLe m.files := by
  unfold MakeMemFS at h
  split at h
  · exact Except.noConfusion h
  · split at h
    · injection h with h
      subst h
      rcases files with _ | ⟨f, _ | ⟨g, rest⟩⟩
      · exact List.Pairwise.nil
      · exact List.pairwise_singleton _ _
      · simp at *
    · split at h
      · exact Except.noConfusion h
      · injection h with h
        subst h
        unfold SortedLe
        exact List.sorted_insertionSort entLe files

/-- A successful build keeps the entry collection (as a permutation). -/
theorem MakeMemFS_perm {files : List MEntry} {m : memFS}
    (h : MakeMemFS files = .ok m) : m.files.Perm files := by
  unfold MakeMemFS at h
  split at h
  · exact Except.noConfusion h
  · split at h
    · injection h with h
      subst h
      exact List.Perm.refl _
    · split at h
      · exact Except.noConfusion h
      · injection h with h
        subst h
        exact List.perm_insertionSort entLe files

/-- A successful build has the empty rootpath. -/
theorem MakeMemFS_rootpath {files : List MEntry} {m : memFS}
    (h : MakeMemFS files = .ok m) : m.rootpath = [] := by
  unfold MakeMemFS at h
  split at h
  · exact Except.noConfusion h
  · split at h
    · injection h with h
      subst h
      rfl
    · split at h
      · exact Except.noConfusion h
      · injection h with h
        subst h
        rfl

/-- The validation loop accepts exactly lists of valid entries. -/
theorem validateFiles_none {files : List MEntry} (hv : validateFiles files = none) :
    ∀ e ∈ files, validPath e.name = true ∧ (isDir e.name = true → e.content = []) := by
  induction files with
  | nil =>
    intro e he
    exact absurd he (List.not_mem_nil e)
  | cons f rest ih =>
    intro e he
    simp only [validateFiles] at hv
    split at hv
    · exact Option.noConfusion hv
    · next hdir =>
      split at hv
      · exact Option.noConfusion hv
      · next hvalid =>
        rcases List.mem_cons.mp he with rfl | he2
        · refine ⟨by simpa using hvalid, ?_⟩
          intro hd
          simp [hd] at hdir
          simpa using hdir
        · exact ih hv e he2

/-- Validation really ran: every entry of a successful build has a valid
path, and directory markers are empty. -/
theorem MakeMemFS_validated {files : List MEntry} {m : memFS}
    (h : MakeMemFS files = .ok m) :
    ∀ e ∈ m.files, validPath e.name = true ∧ (isDir e.name = true → e.content = []) := by
  have hperm := MakeMemFS_perm h
  unfold MakeMemFS at h
  split at h
  · exact Except.noConfusion h
  · next hv =>
    intro e he
    exact validateFiles_none hv e (hperm.mem_iff.mp he)

/-- Decidable equality for `Except`, used to settle concrete runs. -/
instance {α β : Type} [DecidableEq α] [DecidableEq β] : DecidableEq (Except α β) := fun a b =>
  match a, b with
  | .error x, .error y =>
    if h : x = y then .isTrue (congrArg Except.error h)
    else .isFalse (fun hx => h (Except.error.inj hx))
  | .ok x, .ok y =>
    if h : x = y then .isTrue (congrArg Except.ok h)
    else .isFalse (fun hx => h (Except.ok.inj hx))
  | .error x, .ok y => .isFalse (fun hx => Except.noConfusion hx)
  | .ok x, .error y => .isFalse (fun hx => Except.noConfusion hx)

/-- The already-closed error class of the error taxonomy: `fs.ErrClosed`,
the package's `errClosed` ("file already closed") and `errStatClosed`
("use of closed file"). -/
def isClosedErr : FsErr → Bool
  | .closed => true
  | .errClosed => true
  | .errStatClosed => true
  | _ => false

/-- The three-entry example collection of the specification. -/
def ents5 : List MEntry :=
  [⟨str "a/a", str "Hello"⟩, ⟨str "a/b/c", []⟩, ⟨str "b", []⟩]

/-- Evaluation of the shell matcher on pattern "a/*" and one concrete
name arising in the example store's walk. -/
theorem matchGo_astar_empty : matchGo [97, 47, 42] [] = .ok false := by
  rw [matchGo.eq_def]
  simp [matchChunk, scanChunk, stripStars, scanChunkLoop, chunksValid, starLoop, str, sep, decodeRune, classChunk, rangeLoop, getEsc]
  try (rw [matchGo.eq_def]; simp [matchChunk, scanChunk, stripStars, scanChunkLoop, chunksValid, starLoop, str, sep, decodeRune, classChunk, rangeLoop, getEsc])
  try (rw [matchGo.eq_def]; simp [matchChunk, scanChunk, stripStars, scanChunkLoop, chunksValid, starLoop, str, sep, decodeRune, classChunk, rangeLoop, getEsc])

/-- Evaluation of the shell matcher on pattern "a/*" and one concrete
name arising in the example store's walk. -/
theorem matchGo_astar_a : matchGo [97, 47, 42] [97] = .ok false := by
  rw [matchGo.eq_def]
  simp [matchChunk, scanChunk, stripStars, scanChunkLoop, chunksValid, starLoop, str, sep, decodeRune, classChunk, rangeLoop, getEsc]
  try (rw [matchGo.eq_def]; simp [matchChunk, scanChunk, stripStars, scanChunkLoop, chunksValid, starLoop, str, sep, decodeRune, classChunk, rangeLoop, getEsc])
  try (rw [matchGo.eq_def]; simp [matchChunk, scanChunk, stripStars, scanChunkLoop, chunksValid, starLoop, str, sep, decodeRune, classChunk, rangeLoop, getEsc])

/-- Evaluation of the shell matcher on pattern "a/*" and one concrete
name arising in the example store's walk. -/
theorem matchGo_astar_aa : matchGo [97, 47, 42] [97, 47, 97] = .ok true := by
  rw [matchGo.eq_def]
  simp [matchChunk, scanChunk, stripStars, scanChunkLoop, chunksValid, starLoop, str, sep, decodeRune, classChunk, rangeLoop, getEsc]
  try (rw [matchGo.eq_def]; simp [matchChunk, scanChunk, stripStars, scanChunkLoop, chunksValid, starLoop, str, sep, decodeRune, classChunk, rangeLoop, getEsc])
  try (rw [matchGo.eq_def]; simp [matchChunk, scanChunk, stripStars, scanChunkLoop, chunksValid, starLoop, str, sep, decodeRune, classChunk, rangeLoop, getEsc])

/-- Evaluation of the shell matcher on pattern "a/*" and one concrete
name arising in the example store's walk. -/
theorem matchGo_astar_ab : matchGo [97, 47, 42] [97, 47, 98] = .ok true := by
  rw [matchGo.eq_def]
  simp [matchChunk, scanChunk, stripStars, scanChunkLoop, chunksValid, starLoop, str, sep, decodeRune, classChunk, rangeLoop, getEsc]
  try (rw [matchGo.eq_def]; simp [matchChunk, scanChunk, stripStars, scanChunkLoop, chunksValid, starLoop, str, sep, decodeRune, classChunk, rangeLoop, getEsc])
  try (rw [matchGo.eq_def]; simp [matchChunk, scanChunk, stripStars, scanChunkLoop, chunksValid, starLoop, str, sep, decodeRune, classChunk, rangeLoop, getEsc])

/-- Evaluation of the shell matcher on pattern "a/*" and one concrete
name arising in the example store's walk. -/
theorem matchGo_astar_abc : matchGo [97, 47, 42] [97, 47, 98, 47, 99] = .ok false := by
  rw [matchGo.eq_def]
  simp [matchChunk, scanChunk, stripStars, scanChunkLoop, chunksValid, starLoop, str, sep, decodeRune, classChunk, rangeLoop, getEsc]
  try (rw [matchGo.eq_def]; simp [matchChunk, scanChunk, stripStars, scanChunkLoop, chunksValid, starLoop, str, sep, decodeRune, classChunk, rangeLoop, getEsc])
  try (rw [matchGo.eq_def]; simp [matchChunk, scanChunk, stripStars, scanChunkLoop, chunksValid, starLoop, str, sep, decodeRune, classChunk, rangeLoop, getEsc])

/-- Evaluation of the shell matcher on pattern "a/*" and one concrete
name arising in the example store's walk. -/
theorem matchGo_astar_b : matchGo [97, 47, 42] [98] = .ok false := by
  rw [matchGo.eq_def]
  simp [matchChunk, scanChunk, stripStars, scanChunkLoop, chunksValid, starLoop, str, sep, decodeRune, classChunk, rangeLoop, getEsc]
  try (rw [matchGo.eq_def]; simp [matchChunk, scanChunk, stripStars, scanChunkLoop, chunksValid, starLoop, str, sep, decodeRune, classChunk, rangeLoop, getEsc])
  try (rw [matchGo.eq_def]; simp [matchChunk, scanChunk, stripStars, scanChunkLoop, chunksValid, starLoop, str, sep, decodeRune, classChunk, rangeLoop, getEsc])

/-- Evaluation of `Glob("a/*")` on the example store. -/
theorem glob_ents5 : memFS.Glob ⟨ents5, []⟩ (str "a/*") = .ok [str "a/a", str "a/b"] := by
  simp [memFS.Glob, matchGo_astar_empty, matchGo_astar_a, matchGo_astar_aa,
    matchGo_astar_ab, matchGo_astar_abc, matchGo_astar_b, walk, walkFrom,
    walkInner, walkInnerAux, commonPath, lenCommon, lastSepEnd, fsPath, isDir,
    idxSep, nextSegment, cutPref, str, sep, ents5]

/-- C5: for the store built from {"a/a": "Hello", "a/b/c": "", "b": ""},
Stat("a/b") reports a directory, ReadFile("a/a") returns "Hello", and
Glob("a/*") returns exactly ["a/a", "a/b"] in that order. -/
theorem c5_example_store :
    ∃ m, MakeMemFS ents5 = .ok m
      ∧ (∃ d, memFS.Stat m (str "a/b") = .ok (.dirInfo d) ∧ memDir.isDirInfo d = true)
      ∧ memFS.ReadFile m (str "a/a") = .ok (str "Hello")
      ∧ memFS.Glob m (str "a/*") = .ok [str "a/a", str "a/b"] := by
  refine ⟨⟨ents5, []⟩, by decide, ⟨⟨str "a/b/", 2⟩, by decide, by decide⟩, by decide,
    glob_ents5⟩

/-- C3: `WriteTo` on a handle with nonzero offset hands the sink the WHOLE
content, not the remainder `c[o:]`: after seeking to offset 1 in content
"ab", the string passed to `io.WriteString` is "ab" (≠ "b"), and a full
2-byte sink write advances the offset to 3, past the end of content. -/
theorem c3_writeto_whole_content :
    memFile.Seek (makeFile ⟨str "f", str "ab"⟩) 1 0
      = .ok (1, { file := ⟨str "f", str "ab"⟩, name := str "f", ridx := 1 })
    ∧ memFile.writeToArg { file := ⟨str "f", str "ab"⟩, name := str "f", ridx := 1 }
      = str "ab"
    ∧ memFile.writeToArg { file := ⟨str "f", str "ab"⟩, name := str "f", ridx := 1 }
      ≠ (str "ab").drop 1
    ∧ (memFile.WriteTo { file := ⟨str "f", str "ab"⟩, name := str "f", ridx := 1 }
        2 none).2.ridx = 3 := by
  decide

/-- C7: the ChangedRoot consistency error IS reachable from a successfully
built store: entries {"a!", "b"} build fine, `Open("a")` resolves to a
directory view (the prefix check uses "a", not "a/"), and `ReadDir(-1)` on
it fails with the internal consistency error. -/
theorem c7_changedroot_reachable :
    ∃ m d, MakeMemFS [⟨str "a!", []⟩, ⟨str "b", []⟩] = .ok m
      ∧ memFS.Open m (str "a") = .ok (.dir d)
      ∧ memReadableDir.ReadDir d (-1) = .error (.raw .errChangedRoot) := by
  refine ⟨⟨[⟨str "a!", []⟩, ⟨str "b", []⟩], []⟩,
    ⟨⟨[⟨str "a!", []⟩], str "a/"⟩, {}⟩, by decide, by decide, by decide⟩

/-- C2 counterexample: on the store {"a/x", "a/y"} the root directory has
N = 1 immediate child; the claim demands the 2nd `ReadDir(1)` fail with
EOF, but it returns an empty result WITHOUT error (the cursor still had
entries to skip into the already-emitted child directory). -/
theorem c2_counterexample_pagination :
    ∃ m d1 e1, MakeMemFS [⟨str "a/x", []⟩, ⟨str "a/y", []⟩] = .ok m
      ∧ memFS.Open m [46] = .ok (.dir d1)
      ∧ memReadableDir.ReadDir d1 1 = .ok ([e1], ⟨m, ⟨str "a/", 1⟩⟩)
      ∧ memReadableDir.ReadDir ⟨m, ⟨str "a/", 1⟩⟩ 1 = .ok ([], ⟨m, ⟨str "a/", 2⟩⟩) := by
  refine ⟨⟨[⟨str "a/x", []⟩, ⟨str "a/y", []⟩], []⟩, ⟨⟨[⟨str "a/x", []⟩, ⟨str "a/y", []⟩], []⟩, {}⟩,
    .dirE ⟨str "a/", 0⟩, by decide, by decide, by decide, by decide⟩

/-- C4 counterexample: the entry ("", "") is a valid singleton build (its
path passes validPath), but ReadFile("") resolves to the root directory
and fails with NotExist instead of returning the empty content. -/
theorem c4_counterexample_empty_path :
    validPath [] = true
    ∧ MakeMemFS [⟨[], []⟩] = .ok ⟨[⟨[], []⟩], []⟩
    ∧ memFS.ReadFile ⟨[⟨[], []⟩], []⟩ [] = .error (fsPathError "readfile" [] .notExist) := by
  decide

/-- C6 counterexample: on a CLOSED file handle, `ReadAt` with a negative
offset fails with the negative-offset error — checked before the closed
flag — not with an already-closed error, contradicting "every operation
with any arguments". -/
theorem c6_counterexample_readat_negative :
    memFile.ReadAt { file := ⟨str "f", str "ab"⟩, name := str "f", ridx := -1 } 1 (-1)
      = ([], some (fsPathError "readat" (str "f") .errNegativeOffset))
    ∧ isClosedErr .errNegativeOffset = false := by
  decide

/-- C10 counterexample: on the EMPTY store, the name "" resolves (after
prepending the empty rootpath) to the current directory: `Open` returns
the root directory handle and `Stat` succeeds, even though "" matches no
stored entry and is no prefix of one — the claim demands NotExist. -/
theorem c10_counterexample_empty_store :
    MakeMemFS [] = .ok ⟨[], []⟩
    ∧ memFS.Open ⟨[], []⟩ [] = .ok (.dir ⟨⟨[], []⟩, {}⟩)
    ∧ memFS.Stat ⟨[], []⟩ [] = .ok (.dirInfo ⟨[], 0⟩) := by
  decide

/-- C1 counterexample, both directions: (1) {"a/", "b"} — valid paths, an
empty-content directory marker, no duplicate and no file/directory
collision — fails construction; (2) {"a", "a!", "a/b"} — where file "a"
IS a strict prefix-with-separator of "a/b" — builds successfully because
the colliding pair is not adjacent in sorted order. -/
theorem c1_counterexample_markers_and_collision :
    (validPath (str "a/") = true ∧ validPath (str "b") = true
      ∧ [str "a/", str "b"].Nodup
      ∧ MakeMemFS [⟨str "a/", []⟩, ⟨str "b", []⟩] = .error .dupe)
    ∧ (isDir (str "a") = false
      ∧ toDir (str "a") <+: (str "a/b")
      ∧ MakeMemFS [⟨str "a", []⟩, ⟨str "a!", []⟩, ⟨str "a/b", []⟩]
          = .ok ⟨[⟨str "a", []⟩, ⟨str "a!", []⟩, ⟨str "a/b", []⟩], []⟩) := by
  decide

/-- C6 (amended): after Close on a file handle every operation fails with
the already-closed error — with the one exception of `ReadAt` with a
negative offset, rejected with the negative-offset error first — and a
second Close succeeds silently; after Close on a directory handle every
operation, a second Close included, fails with an already-closed-class
error (Stat with "use of closed file", the others with "file already
closed"). -/
theorem c6_closed_handle_contract :
    (∀ f : memFile, f.isClosed = true →
      (∀ bufLen, memFile.Read f bufLen = .error (fsPathError "read" f.name .closed))
      ∧ (∀ bufLen off, 0 ≤ off →
          memFile.ReadAt f bufLen off
            = ([], some (fsPathError "read" f.name .closed)))
      ∧ (∀ bufLen off, off < 0 →
          memFile.ReadAt f bufLen off
            = ([], some (fsPathError "readat" f.name .errNegativeOffset)))
      ∧ (∀ i werr, memFile.WriteTo f i werr
          = ((0, some (fsPathError "read" f.name .closed)), f))
      ∧ (∀ off whence, memFile.Seek f off whence
          = .error (fsPathError "seek" f.name .closed))
      ∧ memFile.Stat f = .error (fsPathError "stat" f.name .closed)
      ∧ (memFile.Close f).1 = none ∧ ((memFile.Close f).2).isClosed = true)
    ∧ (∀ d : memReadableDir, d.closed = true →
      memReadableDir.Stat d = .error (memPathError "stat" d.cwd .errStatClosed)
      ∧ memReadableDir.Read d = (0, memPathError "read" d.cwd .errClosed)
      ∧ (∀ off whence, memReadableDir.Seek d off whence
          = .error (memPathError "seek" d.cwd .errClosed))
      ∧ memReadableDir.Close d = .error (memPathError "close" d.cwd .errClosed)
      ∧ (∀ n, memReadableDir.ReadDir d n
          = .error (memPathError "readdir" d.cwd .errClosed))
      ∧ isClosedErr .errStatClosed = true ∧ isClosedErr .errClosed = true) := by
  constructor
  · intro f hf
    refine ⟨?_, ?_, ?_, ?_, ?_, ?_, ?_, ?_⟩
    · intro bufLen
      simp [memFile.Read, hf]
    · intro bufLen off hoff
      have : ¬off < 0 := by omega
      simp [memFile.ReadAt, this, hf]
    · intro bufLen off hoff
      simp [memFile.ReadAt, hoff]
    · intro i werr
      simp [memFile.WriteTo, hf]
    · intro off whence
      simp [memFile.Seek, hf]
    · simp [memFile.Stat, hf]
    · simp [memFile.Close]
    · simp [memFile.Close, memFile.isClosed]
  · intro d hd
    refine ⟨?_, ?_, ?_, ?_, ?_, rfl, rfl⟩
    · simp [memReadableDir.Stat, hd]
    · simp [memReadableDir.Read, hd]
    · intro off whence
      simp [memReadableDir.Seek, hd]
    · simp [memReadableDir.Close, hd]
    · intro n
      simp [memReadableDir.ReadDir, hd]

/-- Witness for C6 at a concrete closed file handle and a concrete closed
directory handle. -/
theorem c6_closed_handle_contract_witness :
    memFile.Stat ⟨⟨str "f", str "ab"⟩, str "f", -1⟩
      = .error (fsPathError "stat" (str "f") .closed)
    ∧ memReadableDir.ReadDir ⟨⟨[], []⟩, ⟨[], -1⟩⟩ 1
      = .error (memPathError "readdir" [46] .errClosed) := by
  constructor
  · exact (c6_closed_handle_contract.1 ⟨⟨str "f", str "ab"⟩, str "f", -1⟩
      (by decide)).2.2.2.2.2.1
  · exact ((c6_closed_handle_contract.2 ⟨⟨[], []⟩, ⟨[], -1⟩⟩
      (by decide)).2.2.2.2.1) 1

/-- `openPath` either succeeds or fails with exactly ErrNotExist. -/
theorem openPath_ok_or_notExist (m : memFS) (r : Str) :
    (∃ res, memFS.openPath m r = .ok res)
    ∨ memFS.openPath m r = .error .notExist := by
  unfold memFS.openPath
  repeat' split
  all_goals first
    | exact Or.inr rfl
    | exact Or.inl ⟨_, rfl⟩

/-- When no stored name equals or extends the resolved path, `openPath`
misses. -/
theorem openPath_notExist (m : memFS) (r : Str) (hr : r ≠ [])
    (H : ∀ f ∈ m.files, f.name ≠ r ∧ ¬(r <+: f.name)) :
    memFS.openPath m r = .error .notExist := by
  unfold memFS.openPath
  have hre : ¬(r == []) = true := by simpa using hr
  rw [if_neg hre]
  have hffalse : (memFS.find m r).2 = false := by
    unfold memFS.find
    rcases hx : m.files[(m.files.takeWhile fun f => strLt f.name r).length]? with _ | f
    · simp [hx]
    · simp only [hx]
      have hmem : f ∈ m.files := List.getElem?_mem hx
      have := (H f hmem).1
      simpa using this
  rw [hffalse]
  simp only [Bool.false_eq_true, if_false]
  split
  · rfl
  · next hcond =>
    exfalso
    apply hcond
    by_cases hlen : m.files.length ≤ (memFS.find m r).1
    · simp [hlen]
    · push_neg at hlen
      rcases hx : m.files[(memFS.find m r).1]? with _ | f
      · rw [List.getElem?_eq_getElem hlen] at hx
        exact Option.noConfusion hx
      · have hmem : f ∈ m.files := List.getElem?_mem hx
        have hnp := (H f hmem).2
        have hgd : m.files.getD (memFS.find m r).1 default = f := by
          simp [List.getD, hx]
        rw [hgd]
        simp only [Bool.or_eq_true, decide_eq_true_eq]
        right
        simp only [Bool.not_eq_true']
        rw [← Bool.not_eq_true]
        intro hb
        exact hnp (List.isPrefixOf_iff_prefix.mp hb)

/-- C10 (amended): Open, Stat and ReadFile never validate the requested
name and never return the Invalid error: for every name they either
succeed or fail with NotExist; whenever the resolved path is nonempty
and no stored entry path equals or extends it, they fail with NotExist —
but a name resolving to the empty path (such as "" or "." on a root
store) yields the root directory view rather than NotExist; only Sub
rejects invalid resolved paths with the Invalid error. -/
theorem c10_no_validation (m : memFS) :
    (∀ name,
      ((∃ h, m.Open name = .ok h)
        ∨ m.Open name = .error (fsPathError "open" name .notExist))
      ∧ ((∃ i, m.Stat name = .ok i)
        ∨ m.Stat name = .error (fsPathError "stat" name .notExist))
      ∧ ((∃ c, m.ReadFile name = .ok c)
        ∨ m.ReadFile name = .error (fsPathError "readfile" name .notExist)))
    ∧ (∀ name, m.root name ≠ [] →
        (∀ f ∈ m.files, f.name ≠ m.root name ∧ ¬(m.root name <+: f.name)) →
        m.Open name = .error (fsPathError "open" name .notExist)
        ∧ m.Stat name = .error (fsPathError "stat" name .notExist)
        ∧ m.ReadFile name = .error (fsPathError "readfile" name .notExist))
    ∧ (∀ name, m.root name = [] → m.Open name = .ok (.dir { fs := m }))
    ∧ (∀ dir, m.rootdir dir ≠ [] → validPath (m.rootdir dir) = false →
        m.Sub dir = .error (fsPathError "sub" dir .invalid)) := by
  refine ⟨?_, ?_, ?_, ?_⟩
  · intro name
    refine ⟨?_, ?_, ?_⟩
    · unfold memFS.Open
      rcases openPath_ok_or_notExist m (m.root name) with ⟨res, hok⟩ | herr
      · rw [hok]
        rcases res with f | d
        · exact Or.inl ⟨_, rfl⟩
        · exact Or.inl ⟨_, rfl⟩
      · rw [herr]
        exact Or.inr rfl
    · unfold memFS.Stat
      rcases openPath_ok_or_notExist m (m.root name) with ⟨res, hok⟩ | herr
      · rw [hok]
        rcases res with f | d
        · exact Or.inl ⟨_, rfl⟩
        · exact Or.inl ⟨_, rfl⟩
      · rw [herr]
        exact Or.inr rfl
    · unfold memFS.ReadFile
      rcases openPath_ok_or_notExist m (m.root name) with ⟨res, hok⟩ | herr
      · rw [hok]
        rcases res with f | d
        · exact Or.inl ⟨_, rfl⟩
        · exact Or.inr rfl
      · rw [herr]
        exact Or.inr rfl
  · intro name hr H
    have hne := openPath_notExist m (m.root name) hr H
    unfold memFS.Open memFS.Stat memFS.ReadFile
    rw [hne]
    exact ⟨rfl, rfl, rfl⟩
  · intro name hr
    unfold memFS.Open
    have : m.openPath (m.root name) = .ok (.dir m) := by
      rw [hr]
      unfold memFS.openPath
      rfl
    rw [this]
  · intro dir h1 h2
    simp only [memFS.Sub]
    have hb : (m.rootdir dir != [] && !validPath (m.rootdir dir)) = true := by
      simp [bne_iff_ne, h1, h2]
    rw [if_pos hb]

/-- Witness for C10 on the one-entry store {"b": "x"}: the name "a"
resolves to "a", matches nothing, and Open misses with NotExist, while
Sub("/a") resolves to the invalid directory path "/a/" and is rejected
with Invalid. -/
theorem c10_no_validation_witness :
    (str "a" ≠ [] ∧ memFS.Open ⟨[⟨str "b", str "x"⟩], []⟩ (str "a")
      = .error (fsPathError "open" (str "a") .notExist))
    ∧ memFS.Sub ⟨[⟨str "b", str "x"⟩], []⟩ (str "/a")
      = .error (fsPathError "sub" (str "/a") .invalid) := by
  refine ⟨⟨by decide, ?_⟩, ?_⟩
  · exact ((c10_no_validation ⟨[⟨str "b", str "x"⟩], []⟩).2.1 (str "a")
      (by decide) (by decide)).1
  · exact (c10_no_validation ⟨[⟨str "b", str "x"⟩], []⟩).2.2.2 (str "/a")
      (by decide) (by decide)

/-- In a list sorted strictly by name, `takeWhile (strLt . target)` stops
exactly at a member carrying the target name. -/
theorem takeWhile_locate (l : List MEntry)
    (hs : l.Pairwise (fun a b => strLt a.name b.name = true))
    (e : MEntry) (he : e ∈ l) :
    l[(l.takeWhile (fun f => strLt f.name e.name)).length]? = some e := by
  induction l with
  | nil => cases he
  | cons f rest ih =>
    rw [List.pairwise_cons] at hs
    obtain ⟨hall, hrest⟩ := hs
    rcases List.mem_cons.mp he with rfl | hmem
    · rw [List.takeWhile_cons, if_neg (by simp [strLt_irrefl])]
      simp
    · rw [List.takeWhile_cons, if_pos (hall e hmem)]
      simp only [List.length_cons, List.getElem?_cons_succ]
      exact ih hrest hmem

/-- `find` on a strictly sorted store locates any member exactly. -/
theorem find_mem (m : memFS) (e : MEntry)
    (hs : m.files.Pairwise (fun a b => strLt a.name b.name = true))
    (he : e ∈ m.files) :
    (m.find e.name).2 = true ∧ m.files.getD (m.find e.name).1 default = e := by
  have h := takeWhile_locate m.files hs e he
  constructor
  · simp only [memFS.find]
    rw [h]
    simp
  · simp only [memFS.find]
    rw [h]
    simp [List.getD, h]

/-- On a strictly sorted store, `openPath` at the exact name of a member
whose name is nonempty returns a file handle over that member. -/
theorem openPath_mem (m : memFS) (e : MEntry)
    (hs : m.files.Pairwise (fun a b => strLt a.name b.name = true))
    (he : e ∈ m.files) (hne : e.name ≠ []) :
    m.openPath e.name = .ok (.file (makeFile e)) := by
  obtain ⟨hf, hg⟩ := find_mem m e hs he
  unfold memFS.openPath
  rw [if_neg (by simpa using hne), if_pos hf, hg]

/-- C9: a stored directory-marker entry (name ending in "/"), addressed by
that exact name on a root store, is treated as a regular FILE: Open yields
a file handle, Stat a non-directory FileInfo with regular-file mode bits
and size 0, and ReadFile the (empty) content instead of NotExist. -/
theorem c9_marker_opens_as_file (m : memFS) (e : MEntry)
    (hroot : m.rootpath = [])
    (hs : m.files.Pairwise (fun a b => strLt a.name b.name = true))
    (he : e ∈ m.files) (hd : e.name.getLast? = some sep) (hc : e.content = []) :
    m.Open e.name = .ok (.file (makeFile e))
    ∧ m.Stat e.name = .ok (.fileInfo (makeFile e))
    ∧ (makeFile e).isDirInfo = false
    ∧ (makeFile e).mode = modeFile
    ∧ (makeFile e).size = 0
    ∧ m.ReadFile e.name = .ok [] := by
  have hne : e.name ≠ [] := by
    intro h
    rw [h] at hd
    exact Option.noConfusion hd
  have hnd : e.name ≠ [46] := by
    intro h
    rw [h] at hd
    simp [sep] at hd
  have hroote : m.root e.name = e.name := by
    unfold memFS.root
    rw [if_neg (by simpa using hnd), hroot]
    rfl
  have hop : m.openPath (m.root e.name) = .ok (.file (makeFile e)) := by
    rw [hroote]
    exact openPath_mem m e hs he hne
  refine ⟨?_, ?_, rfl, rfl, ?_, ?_⟩
  · unfold memFS.Open
    rw [hop]
  · unfold memFS.Stat
    rw [hop]
  · simp [memFile.size, makeFile, fileSize, hc]
  · unfold memFS.ReadFile
    rw [hop]
    simp [makeFile, hc]

/-- Witness for C9 on the singleton store successfully built from the
directory marker ("a/", ""). -/
theorem c9_marker_opens_as_file_witness :
    MakeMemFS [⟨str "a/", []⟩] = .ok ⟨[⟨str "a/", []⟩], []⟩
    ∧ memFS.Open ⟨[⟨str "a/", []⟩], []⟩ (str "a/")
        = .ok (.file (makeFile ⟨str "a/", []⟩))
    ∧ memFS.ReadFile ⟨[⟨str "a/", []⟩], []⟩ (str "a/") = .ok [] := by
  have h := c9_marker_opens_as_file ⟨[⟨str "a/", []⟩], []⟩ ⟨str "a/", []⟩
    rfl (by decide) (by decide) (by decide) rfl
  exact ⟨by decide, h.1, h.2.2.2.2.2⟩

/-- Strict name order on entries. -/
@[reducible] def entLt (a b : MEntry) : Prop := strLt a.name b.name = true

/-- `strLt` is transitive. -/
theorem strLt_trans {a b c : Str} (h1 : strLt a b = true)
    (h2 : strLt b c = true) : strLt a c = true := by
  have h3 := strLe_trans (strLe_of_lt h1) (strLe_of_lt h2)
  refine strLt_of_le_ne h3 ?_
  intro hx
  subst hx
  rw [strLt_not_of_le (strLe_of_lt h1)] at h2
  exact Bool.noConfusion h2

instance : IsTrans MEntry entLt := ⟨fun a b c => strLt_trans⟩

/-- The last element of an emission list, defaulting to `d`: the scan state
after processing the list. -/
def lastD (d : Str) : List Str → Str
  | [] => d
  | r :: rest => lastD r rest

/-- Unfolding equation of `scanList` kept as a rewrite rule. -/
theorem scanList_cons (pn r : Str) (l : List Str) :
    scanList pn (r :: l)
      = if pn == r then true
        else if isDir r && r.dropLast == pn then true
        else scanList r l := rfl

/-- The scan over an appended emission list splits at the last element of
the first part. -/
theorem scanList_append (xs : List Str) : ∀ (ys : List Str) (pn : Str),
    scanList pn (xs ++ ys) = (scanList pn xs || scanList (lastD pn xs) ys) := by
  induction xs with
  | nil => intro ys pn; simp [scanList, lastD]
  | cons x xs ih =>
    intro ys pn
    rw [List.cons_append, scanList_cons, scanList_cons]
    have hl : lastD pn (x :: xs) = lastD x xs := rfl
    rw [hl]
    by_cases h1 : (pn == x) = true
    · rw [if_pos h1, if_pos h1]; rfl
    · rw [if_neg h1, if_neg h1]
      by_cases h2 : (isDir x && x.dropLast == pn) = true
      · rw [if_pos h2, if_pos h2]; rfl
      · rw [if_neg h2, if_neg h2]
        exact ih ys x

/-- A firing tail keeps the scan firing under any head. -/
theorem scanList_cons_of_tail {r : Str} {l : List Str} (h : scanList r l = true)
    (pn : Str) : scanList pn (r :: l) = true := by
  rw [scanList_cons]
  split
  · rfl
  · split
    · rfl
    · exact h

/-- Two identical emissions in a row always fire the scan. -/
theorem scanList_dup (q r : Str) (tail : List Str) :
    scanList q (r :: r :: tail) = true := by
  refine scanList_cons_of_tail ?_ q
  rw [scanList_cons]
  rw [if_pos (by simp)]

/-- A path that is empty or ends in the separator. -/
def endsSep (s : Str) : Prop := s = [] ∨ s.getLast? = some sep

/-- `lastSepEnd` never exceeds the length. -/
theorem lastSepEnd_le (s : Str) : lastSepEnd s ≤ s.length := by
  induction s with
  | nil => exact Nat.le_refl 0
  | cons c rest ih =>
    simp only [lastSepEnd, List.length_cons]
    split
    · omega
    · split
      · omega
      · omega

/-- The prefix cut at `lastSepEnd` ends in a separator (or is empty). -/
theorem endsSep_take_lastSepEnd (s : Str) : endsSep (s.take (lastSepEnd s)) := by
  induction s with
  | nil => exact Or.inl rfl
  | cons c rest ih =>
    simp only [lastSepEnd]
    split
    · next hr =>
      rw [List.take_succ_cons]
      rcases hx : rest.take (lastSepEnd rest) with _ | ⟨d, t2⟩
      · exfalso
        have hlen := congrArg List.length hx
        rw [List.length_take] at hlen
        simp only [List.length_nil] at hlen
        have hle := lastSepEnd_le rest
        omega
      · right
        rw [List.getLast?_cons_cons]
        rcases ih with h | h
        · rw [hx] at h
          exact List.noConfusion h
        · rw [hx] at h
          exact h
    · split
      · next h hc =>
        right
        rw [List.take_succ_cons, List.take_zero, List.getLast?_singleton]
        simp only [beq_iff_eq] at hc
        rw [hc]
      · rw [List.take_zero]
        exact Or.inl rfl

/-- On a path ending in the separator, `lastSepEnd` is the full length. -/
theorem lastSepEnd_of_endsSep : ∀ (s : Str), endsSep s → lastSepEnd s = s.length
  | [], _ => rfl
  | [c], h => by
    rcases h with h | h
    · exact List.noConfusion h
    · rw [List.getLast?_singleton, Option.some_inj] at h
      simp [lastSepEnd, h]
  | c :: d :: t, h => by
    rcases h with h | h
    · exact List.noConfusion h
    · rw [List.getLast?_cons_cons] at h
      have ih := lastSepEnd_of_endsSep (d :: t) (Or.inr h)
      show (if lastSepEnd (d :: t) > 0 then lastSepEnd (d :: t) + 1
            else if c == sep then 1 else 0) = (c :: d :: t).length
      rw [ih]
      rw [if_pos (by simp [List.length_cons])]
      simp [List.length_cons]

/-- `lenCommon` against an extension is the full length. -/
theorem lenCommon_of_pre : ∀ (l : Str) {b : Str}, l <+: b → lenCommon l b = l.length
  | [], _, _ => rfl
  | c :: ls, b, h => by
    obtain ⟨t, ht⟩ := h
    subst ht
    show lenCommon (c :: ls) (c :: (ls ++ t)) = _
    simp only [lenCommon]
    rw [if_pos (by simp)]
    rw [lenCommon_of_pre ls ⟨t, rfl⟩]
    rfl

/-- The two arguments agree on their first `lenCommon` bytes. -/
theorem take_lenCommon_eq : ∀ (a b : Str), a.take (lenCommon a b) = b.take (lenCommon a b)
  | [], b => by simp [lenCommon]
  | a :: as, [] => by simp [lenCommon]
  | a :: as, b :: bs => by
    by_cases h : (a == b) = true
    · have hab : a = b := by simpa using h
      simp only [lenCommon, if_pos h, List.take_succ_cons]
      rw [take_lenCommon_eq as bs, hab]
    · simp [lenCommon, h]

/-- `commonPath` re-expressed as a double take. -/
theorem commonPath_eq_take (a b : Str) :
    commonPath a b
      = (a.take (lenCommon a b)).take (lastSepEnd (a.take (lenCommon a b))) := by
  unfold commonPath
  rw [List.take_take]
  congr 1
  have h1 := lastSepEnd_le (a.take (lenCommon a b))
  have h2 : (a.take (lenCommon a b)).length ≤ lenCommon a b := by
    rw [List.length_take]
    omega
  omega

/-- `commonPath` ends in a separator or is empty. -/
theorem commonPath_endsSep (a b : Str) : endsSep (commonPath a b) := by
  rw [commonPath_eq_take]
  exact endsSep_take_lastSepEnd _

/-- `commonPath a b` is a prefix of `b`. -/
theorem commonPath_pre (a b : Str) : commonPath a b <+: b := by
  rw [commonPath_eq_take, take_lenCommon_eq a b]
  exact (List.take_prefix _ _).trans (List.take_prefix _ _)

/-- A separator-terminated prefix is its own common path. -/
theorem commonPath_of_pre {l b : Str} (hes : endsSep l) (hpre : l <+: b) :
    commonPath l b = l := by
  unfold commonPath
  rw [lenCommon_of_pre l hpre, List.take_length, lastSepEnd_of_endsSep l hes]
  exact List.take_length l

/-- The `walkInner` scan-state invariant: the final offset stays in bounds,
cuts the name right after a separator (or never moves), and no separator
remains beyond it. -/
theorem walkInnerAux_inv : ∀ (s : Str) (n : Str) (p last : Nat),
    n.drop p = s → last ≤ p → last ≤ n.length →
    endsSep (n.take last) → sep ∉ (n.take p).drop last →
    (walkInnerAux n p last s).2 ≤ n.length
    ∧ endsSep (n.take (walkInnerAux n p last s).2)
    ∧ sep ∉ n.drop (walkInnerAux n p last s).2
  | [], n, p, last => by
    intro hdrop _ hln hes hns
    have hplen : n.length ≤ p := List.drop_eq_nil_iff.mp hdrop
    have htk : n.take p = n := List.take_of_length_le hplen
    rw [htk] at hns
    exact ⟨hln, hes, hns⟩
  | c :: rest, n, p, last => by
    intro hdrop hlp hln hes hns
    have hplen : p < n.length := by
      by_contra hx
      push_neg at hx
      have h0 := List.drop_eq_nil_iff.mpr hx
      rw [hdrop] at h0
      exact List.noConfusion h0
    have hget : n[p]? = some c := by
      have h0 := List.getElem?_drop n p 0
      rw [hdrop] at h0
      simpa using h0.symm
    have hdrop1 : n.drop (p + 1) = rest := by
      rw [← List.drop_drop 1 p n, hdrop]
      rfl
    simp only [walkInnerAux]
    split
    · next hc =>
      have hsep : c = sep := by simpa using hc
      refine walkInnerAux_inv rest n (p+1) (p+1) hdrop1 (Nat.le_refl _) hplen ?_ ?_
      · right
        rw [List.take_succ, hget]
        rw [Option.toList_some]
        rw [List.getLast?_concat, hsep]
      · have h0 : (n.take (p+1)).drop (p+1) = [] :=
          List.drop_eq_nil_iff.mpr (by rw [List.length_take]; omega)
        rw [h0]
        simp
    · next hc =>
      have hcs : c ≠ sep := by simpa using hc
      refine walkInnerAux_inv rest n (p+1) last hdrop1 (by omega) hln hes ?_
      rw [List.take_succ, hget, Option.toList_some]
      rw [List.drop_append_of_le_length (by rw [List.length_take]; omega)]
      intro hmem
      rcases List.mem_append.mp hmem with h | h
      · exact hns h
      · simp only [List.mem_singleton] at h
        exact hcs h.symm

/-- `walkInner` from a separator-aligned offset in bounds. -/
theorem walkInner_inv (n : Str) (o : Nat) (ho : o ≤ n.length)
    (hes : endsSep (n.take o)) :
    (walkInner n o).2 ≤ n.length
    ∧ endsSep (n.take (walkInner n o).2)
    ∧ sep ∉ n.drop (walkInner n o).2 := by
  unfold walkInner
  refine walkInnerAux_inv (n.drop o) n o o rfl (Nat.le_refl o) ho hes ?_
  have h0 : (n.take o).drop o = [] :=
    List.drop_eq_nil_iff.mpr (by rw [List.length_take]; omega)
  rw [h0]
  simp

/-- A separator-free suffix makes the inner walk emit nothing. -/
theorem walkInnerAux_noSep : ∀ (s : Str) (n : Str) (p last : Nat), sep ∉ s →
    walkInnerAux n p last s = ([], last)
  | [], _, _, _, _ => rfl
  | c :: rest, n, p, last, h => by
    have h1 : sep ≠ c ∧ sep ∉ rest := by
      rw [List.mem_cons] at h
      push_neg at h
      exact h
    have hc : ¬(c == sep) = true := by
      simp only [beq_iff_eq]
      exact fun hx => h1.1 hx.symm
    simp only [walkInnerAux, if_neg hc]
    exact walkInnerAux_noSep rest n (p+1) last h1.2

/-- Unfolding equation of `walkFrom` kept as a rewrite rule. -/
theorem walkFrom_cons (prevdir : Str) (f : MEntry) (rest : List MEntry) :
    walkFrom prevdir (f :: rest)
      = (walkInner f.name (commonPath prevdir f.name).length).1
        ++ f.name :: walkFrom
            (f.name.take (walkInner f.name (commonPath prevdir f.name).length).2)
            rest := rfl

/-- Two sorted-adjacent entries sharing a name make the walk emit that
name twice in a row, so the duplicate scan fires — wherever the pair sits
and whatever the starting state. -/
theorem scanList_walkFrom_dup : ∀ (xs : List MEntry) (prevdir pn : Str)
    (f g : MEntry) (ys : List MEntry), f.name = g.name →
    scanList pn (walkFrom prevdir (xs ++ f :: g :: ys)) = true
  | [], prevdir, pn, f, g, ys, heq => by
    rw [List.nil_append, walkFrom_cons]
    have hpre : commonPath prevdir f.name <+: f.name := commonPath_pre prevdir f.name
    have holen : (commonPath prevdir f.name).length ≤ f.name.length := hpre.length_le
    have htake : f.name.take (commonPath prevdir f.name).length = commonPath prevdir f.name :=
      (List.prefix_iff_eq_take.mp hpre).symm
    have hes : endsSep (f.name.take (commonPath prevdir f.name).length) := by
      rw [htake]
      exact commonPath_endsSep prevdir f.name
    obtain ⟨hL1, hL2, hL3⟩ :=
      walkInner_inv f.name (commonPath prevdir f.name).length holen hes
    rw [walkFrom_cons]
    have hgpre :
        f.name.take (walkInner f.name (commonPath prevdir f.name).length).2 <+: g.name := by
      rw [← heq]
      exact List.take_prefix _ _
    have hcp :
        commonPath (f.name.take (walkInner f.name (commonPath prevdir f.name).length).2) g.name
          = f.name.take (walkInner f.name (commonPath prevdir f.name).length).2 :=
      commonPath_of_pre hL2 hgpre
    rw [hcp]
    have hlen :
        (f.name.take (walkInner f.name (commonPath prevdir f.name).length).2).length
          = (walkInner f.name (commonPath prevdir f.name).length).2 := by
      rw [List.length_take]
      omega
    rw [hlen]
    have hnosep :
        sep ∉ g.name.drop (walkInner f.name (commonPath prevdir f.name).length).2 := by
      rw [← heq]
      exact hL3
    have hwi :
        walkInner g.name (walkInner f.name (commonPath prevdir f.name).length).2
          = ([], (walkInner f.name (commonPath prevdir f.name).length).2) := by
      unfold walkInner
      exact walkInnerAux_noSep _ g.name _ _ hnosep
    rw [hwi]
    dsimp only
    rw [List.nil_append, scanList_append]
    have h2 : scanList
        (lastD pn (walkInner f.name (commonPath prevdir f.name).length).1)
        (f.name :: g.name :: walkFrom
          (g.name.take (walkInner f.name (commonPath prevdir f.name).length).2) ys) = true := by
      rw [heq]
      exact scanList_dup _ g.name _
    rw [h2]
    exact Bool.or_true _
  | x :: xs, prevdir, pn, f, g, ys, heq => by
    rw [List.cons_append, walkFrom_cons, scanList_append]
    have h1 := scanList_walkFrom_dup xs
      (x.name.take (walkInner x.name (commonPath prevdir x.name).length).2) x.name f g ys heq
    have h2 : scanList
        (lastD pn (walkInner x.name (commonPath prevdir x.name).length).1)
        (x.name :: walkFrom
          (x.name.take (walkInner x.name (commonPath prevdir x.name).length).2)
          (xs ++ f :: g :: ys)) = true :=
      scanList_cons_of_tail h1 _
    rw [h2]
    exact Bool.or_true _

/-- A successful scan is only possible without adjacent duplicate names. -/
theorem nodupAdj_of_scan {files : List MEntry}
    (hscan : scanList [] (walk [] files) = false) :
    ∀ xs (f g : MEntry) ys, files = xs ++ f :: g :: ys → f.name ≠ g.name := by
  intro xs f g ys hsplit heq
  rw [hsplit] at hscan
  unfold walk at hscan
  rw [scanList_walkFrom_dup xs [] [] f g ys heq] at hscan
  exact Bool.noConfusion hscan

/-- Sorted with distinct adjacent names is an ascending chain. -/
theorem chain_strict : ∀ (l : List MEntry), l.Pairwise entLe →
    (∀ xs (f g : MEntry) ys, l = xs ++ f :: g :: ys → f.name ≠ g.name) →
    List.Chain' entLt l
  | [], _, _ => List.chain'_nil
  | [a], _, _ => List.chain'_singleton a
  | a :: b :: t, hp, hadj => by
    rw [List.chain'_cons]
    constructor
    · have hle : entLe a b := (List.pairwise_cons.mp hp).1 b (List.mem_cons_self b t)
      have hne : a.name ≠ b.name := hadj [] a b t rfl
      exact strLt_of_le_ne hle hne
    · exact chain_strict (b :: t) (List.pairwise_cons.mp hp).2
        (fun xs f g ys hsp => hadj (a :: xs) f g ys (by rw [hsp]; rfl))

/-- Sorted with distinct adjacent names is strictly sorted. -/
theorem pairwise_strict (l : List MEntry) (hp : l.Pairwise entLe)
    (hadj : ∀ xs (f g : MEntry) ys, l = xs ++ f :: g :: ys → f.name ≠ g.name) :
    l.Pairwise entLt :=
  List.chain'_iff_pairwise.mp (chain_strict l hp hadj)

/-- A successful build is STRICTLY sorted: the scan would have caught any
adjacent duplicate (a duplicate name is emitted twice in a row by walk). -/
theorem MakeMemFS_strict {files : List MEntry} {m : memFS}
    (h : MakeMemFS files = .ok m) : m.files.Pairwise entLt := by
  unfold MakeMemFS at h
  split at h
  · exact Except.noConfusion h
  · split at h
    · injection h with h
      subst h
      rcases files with _ | ⟨f, _ | ⟨g, rest⟩⟩
      · exact List.Pairwise.nil
      · exact List.pairwise_singleton _ _
      · simp at *
    · split at h
      · exact Except.noConfusion h
      · next hscan =>
        injection h with h
        subst h
        have hs : scanList [] (walk [] (files.insertionSort entLe)) = false := by
          simpa using hscan
        exact pairwise_strict _ (List.sorted_insertionSort entLe files)
          (nodupAdj_of_scan hs)

/-- C4 (amended): every entry of a successful build whose path is neither
"" nor "." — those resolve to the root directory instead — round-trips:
ReadFile returns exactly the original content and Stat reports a file
whose size is the content length. -/
theorem c4_round_trip (files : List MEntry) (m : memFS) (e : MEntry)
    (hok : MakeMemFS files = .ok m) (he : e ∈ files)
    (h1 : e.name ≠ []) (h2 : e.name ≠ [46]) :
    m.ReadFile e.name = .ok e.content
    ∧ m.Stat e.name = .ok (.fileInfo (makeFile e))
    ∧ (makeFile e).size = (e.content.length : Int) := by
  have hmem : e ∈ m.files := (MakeMemFS_perm hok).mem_iff.mpr he
  have hs := MakeMemFS_strict hok
  have hroot := MakeMemFS_rootpath hok
  have hroote : m.root e.name = e.name := by
    unfold memFS.root
    rw [if_neg (by simpa using h2), hroot]
    rfl
  have hop : m.openPath e.name = .ok (.file (makeFile e)) :=
    openPath_mem m e hs hmem h1
  refine ⟨?_, ?_, rfl⟩
  · unfold memFS.ReadFile
    rw [hroote, hop]
    rfl
  · unfold memFS.Stat
    rw [hroote, hop]

/-- Witness for C4 on the two-entry store {"a": "hi", "b": ""}. -/
theorem c4_round_trip_witness :
    memFS.ReadFile ⟨[⟨str "a", str "hi"⟩, ⟨str "b", []⟩], []⟩ (str "a")
      = .ok (str "hi")
    ∧ (makeFile ⟨str "a", str "hi"⟩).size = ((str "hi").length : Int) := by
  have h := c4_round_trip [⟨str "a", str "hi"⟩, ⟨str "b", []⟩]
    ⟨[⟨str "a", str "hi"⟩, ⟨str "b", []⟩], []⟩ ⟨str "a", str "hi"⟩
    (by decide) (by decide) (by decide) (by decide)
  exact ⟨h.1, h.2.2⟩

/-- A directory view produced by `openPath` keeps the entries sorted: its
range is a contiguous sub-sequence of the parent's entries. -/
theorem openPath_dir_sorted (m : memFS) (r : Str) (d : memFS)
    (hs : SortedLe m.files) (h : m.openPath r = .ok (.dir d)) :
    SortedLe d.files := by
  unfold memFS.openPath at h
  split at h
  · injection h with h
    injection h with h
    subst h
    exact hs
  · split at h
    · injection h with h
      exact OpenRes.noConfusion h
    · split at h
      · exact Except.noConfusion h
      · injection h with h
        injection h with h
        subst h
        exact hs.sublist ((List.take_sublist _ _).trans (List.drop_sublist _ _))

/-- C8: a successful build is sorted ascending by path, and `Sub` preserves
the invariant: a sorted store's successful Sub view is sorted too. -/
theorem c8_sort_invariant :
    (∀ (files : List MEntry) (m : memFS), MakeMemFS files = .ok m → SortedLe m.files)
    ∧ (∀ (m : memFS) (dir : Str) (d : memFS), SortedLe m.files →
        m.Sub dir = .ok d → SortedLe d.files) := by
  constructor
  · intro files m h
    exact MakeMemFS_sorted h
  · intro m dir d hs h
    simp only [memFS.Sub] at h
    split at h
    · exact Except.noConfusion h
    · split at h
      · next d' heq =>
        injection h with h
        subst h
        exact openPath_dir_sorted m (m.rootdir dir) d' hs heq
      · exact Except.noConfusion h

/-- Witness for C8: building from the unsorted input {"b", "a"} yields the
sorted store ["a", "b"], and Sub("a") on the store {"a/x"} yields the
sorted view ["a/x"]. -/
theorem c8_sort_invariant_witness :
    SortedLe [MEntry.mk (str "a") [], MEntry.mk (str "b") []]
    ∧ SortedLe [MEntry.mk (str "a/x") []] := by
  constructor
  · exact c8_sort_invariant.1 [⟨str "b", []⟩, ⟨str "a", []⟩]
      ⟨[⟨str "a", []⟩, ⟨str "b", []⟩], []⟩ (by decide)
  · exact c8_sort_invariant.2 ⟨[⟨str "a/x", []⟩], []⟩ (str "a")
      ⟨[⟨str "a/x", []⟩], str "a/"⟩ (List.pairwise_singleton _ _) (by decide)

/-- The full child emission of `dirEntries` from scan state `prev` over a
store suffix, under the assumption that every name extends the view
rootpath `rp` (so the ChangedRoot branch never fires; `[]` there is a
dummy). -/
def emitE (rp prev : Str) : List MEntry → List MemDirEntry
  | [] => []
  | f :: rest =>
    match cutPref f.name rp with
    | none => []
    | some fnrest =>
      if prev == nextSegment fnrest then emitE rp prev rest
      else if isDir (nextSegment fnrest) then
        .dirE ⟨f.name.take (rp.length + (nextSegment fnrest).length), rp.length⟩
          :: emitE rp (nextSegment fnrest) rest
      else .fileE (makeFile f) :: emitE rp (nextSegment fnrest) rest

/-- The scan state left behind after processing a store suffix. -/
def lastPrevE (rp prev : Str) : List MEntry → Str
  | [] => prev
  | f :: rest =>
    match cutPref f.name rp with
    | none => prev
    | some fnrest =>
      if prev == nextSegment fnrest then lastPrevE rp prev rest
      else lastPrevE rp (nextSegment fnrest) rest

/-- Iterated `ReadDir(1)`: concatenates the pages of repeated single-entry
reads until an error, returned alongside (`none` if the fuel runs out
first). -/
def readDirSeq (d : memReadableDir) : Nat → List MemDirEntry × Option MemErr
  | 0 => ([], none)
  | fuel + 1 =>
    match d.ReadDir 1 with
    | .error e => ([], some e)
    | .ok (de, d2) =>
      let r := readDirSeq d2 fuel
      (de ++ r.1, r.2)

/-- `CutPrefix` on an actual prefix. -/
theorem cutPref_of_pre {rp s : Str} (h : rp <+: s) :
    cutPref s rp = some (s.drop rp.length) := by
  unfold cutPref
  rw [if_pos (List.isPrefixOf_iff_prefix.mpr h)]

/-- With `n ≤ 0` the scan loop never breaks: it emits every remaining
child and parks the cursor at the end. -/
theorem deLoopAux_nonpos (m : memFS) (ne : Nat) (n : Int) (hn : ¬n > 0) :
    ∀ (suffix : List MEntry) (entries : List MemDirEntry) (prev : Str) (idx : Nat),
    (∀ f ∈ suffix, m.rootpath <+: f.name) →
    m.deLoopAux ne n entries prev idx suffix
      = .ok (entries ++ emitE m.rootpath prev suffix,
             ⟨lastPrevE m.rootpath prev suffix, ((idx + suffix.length : Nat) : Int)⟩)
  | [], entries, prev, idx, _ => by
    simp [memFS.deLoopAux, emitE, lastPrevE]
  | f :: rest, entries, prev, idx, hpref => by
    have hcut := cutPref_of_pre (hpref f (List.mem_cons_self f rest))
    have htail : ∀ g ∈ rest, m.rootpath <+: g.name :=
      fun g hg => hpref g (List.mem_cons_of_mem f hg)
    have hngt : decide (n > 0) = false := decide_eq_false hn
    simp only [memFS.deLoopAux, emitE, lastPrevE, hcut, hngt, Bool.false_and,
      Bool.false_eq_true, if_false]
    have hidx : (idx + 1) + rest.length = idx + (f :: rest).length := by
      simp only [List.length_cons]
      omega
    by_cases hpn : (prev == nextSegment (f.name.drop m.rootpath.length)) = true
    · rw [if_pos hpn, if_pos hpn, if_pos hpn]
      rw [deLoopAux_nonpos m ne n hn rest entries prev (idx + 1) htail, hidx]
    · rw [if_neg hpn, if_neg hpn, if_neg hpn]
      by_cases hdir : (isDir (nextSegment (f.name.drop m.rootpath.length))) = true
      · rw [if_pos hdir, if_pos hdir]
        rw [deLoopAux_nonpos m ne n hn rest _ _ (idx + 1) htail, hidx]
        rw [List.append_assoc]
        rfl
      · rw [if_neg hdir, if_neg hdir]
        rw [deLoopAux_nonpos m ne n hn rest _ _ (idx + 1) htail, hidx]
        rw [List.append_assoc]
        rfl

/-- A `ReadDir(1)` scan pass either runs off the end emitting nothing
(when every remaining entry collapses into the current scan state) or
emits exactly the first remaining child and breaks just past the entry
that produced it, leaving a state whose remaining emission is the tail. -/
theorem deLoopAux_one (m : memFS) :
    ∀ (suffix : List MEntry) (prev : Str) (idx : Nat),
    (∀ f ∈ suffix, m.rootpath <+: f.name) →
    (emitE m.rootpath prev suffix = []
      ∧ m.deLoopAux 0 1 [] prev idx suffix
          = .ok ([], ⟨lastPrevE m.rootpath prev suffix,
                      ((idx + suffix.length : Nat) : Int)⟩))
    ∨ (∃ e k prev', emitE m.rootpath prev suffix
          = e :: emitE m.rootpath prev' (suffix.drop k)
        ∧ m.deLoopAux 0 1 [] prev idx suffix
            = .ok ([e], ⟨prev', ((idx + k : Nat) : Int)⟩)
        ∧ 1 ≤ k ∧ k ≤ suffix.length)
  | [], prev, idx, _ => by
    left
    constructor
    · rfl
    · simp [memFS.deLoopAux, lastPrevE]
  | f :: rest, prev, idx, hpref => by
    have hcut := cutPref_of_pre (hpref f (List.mem_cons_self f rest))
    have htail : ∀ g ∈ rest, m.rootpath <+: g.name :=
      fun g hg => hpref g (List.mem_cons_of_mem f hg)
    by_cases hpn : (prev == nextSegment (f.name.drop m.rootpath.length)) = true
    · -- the head entry collapses into the current state
      have hstep : m.deLoopAux 0 1 [] prev idx (f :: rest)
          = m.deLoopAux 0 1 [] prev (idx + 1) rest := by
        simp only [memFS.deLoopAux, hcut]
        rw [if_neg (by simp), if_pos hpn]
      have hemit : emitE m.rootpath prev (f :: rest) = emitE m.rootpath prev rest := by
        simp only [emitE, hcut]
        rw [if_pos hpn]
      have hlast : lastPrevE m.rootpath prev (f :: rest) = lastPrevE m.rootpath prev rest := by
        simp only [lastPrevE, hcut]
        rw [if_pos hpn]
      rcases deLoopAux_one m rest prev (idx + 1) htail with ⟨h1, h2⟩ | ⟨e, k, prev', h1, h2, hk1, hk2⟩
      · left
        refine ⟨by rw [hemit, h1], ?_⟩
        rw [hstep, h2, hlast]
        have : (idx + 1) + rest.length = idx + (f :: rest).length := by
          simp only [List.length_cons]
          omega
        rw [this]
      · right
        refine ⟨e, k + 1, prev', ?_, ?_, by omega, by simp only [List.length_cons]; omega⟩
        · rw [hemit, h1]
          rfl
        · rw [hstep, h2]
          have : (idx + 1) + k = idx + (k + 1) := by omega
          rw [this]
    · -- the head entry is the next child: it is emitted and the loop breaks
      have hbrk : ∀ (e : MemDirEntry) (prev2 : Str),
          m.deLoopAux 0 1 [e] prev2 (idx + 1) rest = .ok ([e], ⟨prev2, ((idx + 1 : Nat) : Int)⟩) := by
        intro e prev2
        rcases rest with _ | ⟨g, rest2⟩
        · simp [memFS.deLoopAux]
        · simp only [memFS.deLoopAux]
          rw [if_pos (by simp)]
      by_cases hdir : (isDir (nextSegment (f.name.drop m.rootpath.length))) = true
      · right
        refine ⟨.dirE ⟨f.name.take (m.rootpath.length
            + (nextSegment (f.name.drop m.rootpath.length)).length), m.rootpath.length⟩,
          1, nextSegment (f.name.drop m.rootpath.length), ?_, ?_, Nat.le_refl 1,
          by simp [List.length_cons]⟩
        · simp only [emitE, hcut]
          rw [if_neg hpn, if_pos hdir]
          rfl
        · simp only [memFS.deLoopAux, hcut]
          rw [if_neg (by simp), if_neg hpn, if_pos hdir]
          exact hbrk _ _
      · right
        refine ⟨.fileE (makeFile f), 1, nextSegment (f.name.drop m.rootpath.length),
          ?_, ?_, Nat.le_refl 1, by simp [List.length_cons]⟩
        · simp only [emitE, hcut]
          rw [if_neg hpn, if_neg hdir]
          rfl
        · simp only [memFS.deLoopAux, hcut]
          rw [if_neg (by simp), if_neg hpn, if_neg hdir]
          exact hbrk _ _

/-- `ReadDir` on a handle with a nonnegative cursor delegates to
`dirEntries`, re-wrapping the updated cursor. -/
theorem ReadDir_eval (m : memFS) (prev : Str) (idx : Nat) (n : Int) :
    memReadableDir.ReadDir ⟨m, ⟨prev, (idx : Int)⟩⟩ n
      = match m.dirEntries [] ⟨prev, (idx : Int)⟩ n with
        | .error e => .error e
        | .ok (de, dc2) => .ok (de, ⟨m, dc2⟩) := by
  unfold memReadableDir.ReadDir
  rw [show (memReadableDir.closed ⟨m, ⟨prev, (idx : Int)⟩⟩) = false from by
    simp [memReadableDir.closed]]
  simp

/-- `dirEntries` on an in-bounds cursor: end-of-store answers directly,
otherwise the scan loop runs on the remaining suffix. -/
theorem dirEntries_eval (m : memFS) (prev : Str) (idx : Nat) (n : Int)
    (hidx : idx ≤ m.files.length) :
    m.dirEntries [] ⟨prev, (idx : Int)⟩ n
      = if idx = m.files.length then
          (if n ≤ 0 then .ok ([], ⟨[], (idx : Int)⟩) else .error (.raw .eof))
        else m.deLoopAux 0 n [] prev idx (m.files.drop idx) := by
  unfold memFS.dirEntries
  rw [if_neg (by
    simp only [Bool.or_eq_true, decide_eq_true_eq]
    omega)]
  by_cases hlen : idx = m.files.length
  · rw [if_pos (by simp only [beq_iff_eq]; omega), if_pos hlen]
  · rw [if_neg (by simp only [beq_iff_eq]; omega), if_neg hlen]
    unfold memFS.deLoop
    rw [Int.toNat_natCast]
    rfl

/-- Iterated `ReadDir(1)` with enough fuel returns every remaining child
exactly once, in store order, and then fails with the bare EOF error. -/
theorem readDirSeq_spec (m : memFS)
    (hpref : ∀ f ∈ m.files, m.rootpath <+: f.name) :
    ∀ (fuel : Nat) (prev : Str) (idx : Nat), idx ≤ m.files.length →
    m.files.length < idx + fuel →
    readDirSeq ⟨m, ⟨prev, (idx : Int)⟩⟩ fuel
      = (emitE m.rootpath prev (m.files.drop idx), some (.raw .eof))
  | 0, prev, idx, hidx, hfuel => by omega
  | fuel + 1, prev, idx, hidx, hfuel => by
    by_cases hlen : idx = m.files.length
    · have hde : m.dirEntries [] ⟨prev, (idx : Int)⟩ 1 = .error (.raw .eof) := by
        rw [dirEntries_eval m prev idx 1 hidx, if_pos hlen, if_neg (by norm_num)]
      simp only [readDirSeq, ReadDir_eval, hde]
      rw [hlen, List.drop_length]
      rfl
    · have hsufpref : ∀ f ∈ m.files.drop idx, m.rootpath <+: f.name :=
        fun f hf => hpref f (List.mem_of_mem_drop hf)
      have hdroplen : (m.files.drop idx).length = m.files.length - idx :=
        List.length_drop idx m.files
      rcases deLoopAux_one m (m.files.drop idx) prev idx hsufpref with
        ⟨h1, h2⟩ | ⟨e, k, prev', h1, h2, hk1, hk2⟩
      · -- every remaining entry collapses: this page is empty, next call EOF
        have hde : m.dirEntries [] ⟨prev, (idx : Int)⟩ 1
            = .ok ([], ⟨lastPrevE m.rootpath prev (m.files.drop idx),
                        ((idx + (m.files.drop idx).length : Nat) : Int)⟩) := by
          rw [dirEntries_eval m prev idx 1 hidx, if_neg hlen]
          exact h2
        have hrec := readDirSeq_spec m hpref fuel
          (lastPrevE m.rootpath prev (m.files.drop idx))
          (idx + (m.files.drop idx).length)
          (by omega) (by omega)
        simp only [readDirSeq, ReadDir_eval, hde, hrec]
        rw [h1]
        have : idx + (m.files.drop idx).length = m.files.length := by omega
        rw [this, List.drop_length]
        rfl
      · -- the first remaining child is returned; recurse past its entry
        have hde : m.dirEntries [] ⟨prev, (idx : Int)⟩ 1
            = .ok ([e], ⟨prev', ((idx + k : Nat) : Int)⟩) := by
          rw [dirEntries_eval m prev idx 1 hidx, if_neg hlen]
          exact h2
        have hrec := readDirSeq_spec m hpref fuel prev' (idx + k)
          (by omega) (by omega)
        simp only [readDirSeq, ReadDir_eval, hde, hrec]
        rw [h1]
        have hdd : (m.files.drop idx).drop k = m.files.drop (idx + k) :=
          List.drop_drop k idx m.files
        rw [hdd]
        rfl

/-- C2 (amended): on any directory view whose entries all extend its
rootpath, repeated `ReadDir(1)` returns every remaining child exactly
once, in ascending store order, before failing with the bare EOF error —
but a call may return an EMPTY page with no error when the remaining
entries all collapse into already-returned children (so EOF need not
arrive exactly at call N+1); `ReadDir(-1)` at any cursor state returns
exactly the not-yet-returned children with no error, even when none
remain. -/
theorem c2_pagination (m : memFS)
    (hpref : ∀ f ∈ m.files, m.rootpath <+: f.name) :
    (∀ (fuel : Nat) (prev : Str) (idx : Nat), idx ≤ m.files.length →
      m.files.length < idx + fuel →
      readDirSeq ⟨m, ⟨prev, (idx : Int)⟩⟩ fuel
        = (emitE m.rootpath prev (m.files.drop idx), some (.raw .eof)))
    ∧ (∀ (prev : Str) (idx : Nat), idx ≤ m.files.length →
      ∃ d2, memReadableDir.ReadDir ⟨m, ⟨prev, (idx : Int)⟩⟩ (-1)
        = .ok (emitE m.rootpath prev (m.files.drop idx), d2)) := by
  constructor
  · intro fuel prev idx hidx hfuel
    exact readDirSeq_spec m hpref fuel prev idx hidx hfuel
  · intro prev idx hidx
    rw [ReadDir_eval]
    by_cases hlen : idx = m.files.length
    · rw [dirEntries_eval m prev idx (-1) hidx, if_pos hlen, if_pos (by norm_num)]
      refine ⟨⟨m, ⟨[], (idx : Int)⟩⟩, ?_⟩
      rw [hlen, List.drop_length]
      rfl
    · rw [dirEntries_eval m prev idx (-1) hidx, if_neg hlen]
      rw [deLoopAux_nonpos m 0 (-1) (by norm_num) (m.files.drop idx) [] prev idx
        (fun f hf => hpref f (List.mem_of_mem_drop hf))]
      exact ⟨_, by rw [List.nil_append]⟩

/-- Witness for C2 on the store {"a/x", "a/y"}: the root has exactly one
child ("a/"), the whole `ReadDir(1)` iteration returns it once and ends
in EOF (within 3 calls — the second call is the empty no-error page). -/
theorem c2_pagination_witness :
    readDirSeq ⟨⟨[⟨str "a/x", []⟩, ⟨str "a/y", []⟩], []⟩, ⟨[], ((0 : Nat) : Int)⟩⟩ 3
      = (emitE [] [] [⟨str "a/x", []⟩, ⟨str "a/y", []⟩], some (.raw .eof))
    ∧ emitE [] [] [⟨str "a/x", []⟩, ⟨str "a/y", []⟩] = [.dirE ⟨str "a/", 0⟩] := by
  constructor
  · exact (c2_pagination ⟨[⟨str "a/x", []⟩, ⟨str "a/y", []⟩], []⟩ (by decide)).1 3 [] 0
      (by decide) (by decide)
  · decide

/-- A prefix is byte-wise at most its extension. -/
theorem strLe_of_pre : ∀ (l : Str) {s : Str}, l <+: s → strLe l s = true
  | [], s, _ => by rcases s with _ | ⟨c, cs⟩ <;> rfl
  | c :: ls, s, h => by
    obtain ⟨t, ht⟩ := h
    subst ht
    show (cmpStr (c :: ls) (c :: (ls ++ t)) != .gt) = true
    have hcmp : cmpStr (c :: ls) (c :: (ls ++ t)) = cmpStr ls (ls ++ t) := by
      show (if c < c then Ordering.lt
            else if c < c then Ordering.gt else cmpStr ls (ls ++ t)) = _
      rw [if_neg (Nat.lt_irrefl c), if_neg (Nat.lt_irrefl c)]
    rw [hcmp]
    exact strLe_of_pre ls ⟨t, rfl⟩

/-- Nothing is strictly below the empty string. -/
theorem strLt_nil (a : Str) : strLt a [] = false := by
  rcases a with _ | ⟨c, cs⟩ <;> rfl

/-- When the walked name ends in a separator that the scan reaches, the
LAST inner emission is the name itself (a dir emission of the full name,
immediately followed by the name emission in `walkFrom`). -/
theorem lastD_walkInnerAux : ∀ (s : Str) (n : Str) (p last : Nat) (x : Str),
    n.drop p = s → p < n.length → n.getLast? = some sep →
    lastD x (walkInnerAux n p last s).1 = n
  | [], n, p, last, x => by
    intro hdrop hp _
    exfalso
    have := List.drop_eq_nil_iff.mp hdrop
    omega
  | c :: rest, n, p, last, x => by
    intro hdrop hp hlast
    have hget : n[p]? = some c := by
      have h0 := List.getElem?_drop n p 0
      rw [hdrop] at h0
      simpa using h0.symm
    have hdrop1 : n.drop (p + 1) = rest := by
      rw [← List.drop_drop 1 p n, hdrop]
      rfl
    rcases rest with _ | ⟨c2, rest2⟩
    · have hlen : p + 1 = n.length := by
        have h1 := congrArg List.length hdrop
        rw [List.length_drop] at h1
        simp at h1
        omega
      have hc : c = sep := by
        rw [List.getLast?_eq_getElem?] at hlast
        have he : n.length - 1 = p := by omega
        rw [he, hget] at hlast
        exact Option.some_inj.mp hlast
      simp only [walkInnerAux]
      rw [if_pos (by simp [hc])]
      show n.take (p + 1) = n
      rw [hlen]
      exact List.take_length n
    · have hp1 : p + 1 < n.length := by
        have h1 := congrArg List.length hdrop
        rw [List.length_drop] at h1
        simp [List.length_cons] at h1
        omega
      simp only [walkInnerAux]
      split
      · show lastD (n.take (p + 1)) (walkInnerAux n (p+1) (p+1) (c2 :: rest2)).1 = n
        exact lastD_walkInnerAux (c2 :: rest2) n (p+1) (p+1) _ hdrop1 hp1 hlast
      · exact lastD_walkInnerAux (c2 :: rest2) n (p+1) last x hdrop1 hp1 hlast

/-- The prevdir state threaded by `walkFrom` through an entry list. -/
def walkPrev (prevdir : Str) : List MEntry → Str
  | [] => prevdir
  | f :: rest =>
    walkPrev (f.name.take (walkInner f.name (commonPath prevdir f.name).length).2) rest

/-- `walkFrom` splits over appends along the threaded prevdir state. -/
theorem walkFrom_append : ∀ (xs : List MEntry) (prevdir : Str) (ys : List MEntry),
    walkFrom prevdir (xs ++ ys)
      = walkFrom prevdir xs ++ walkFrom (walkPrev prevdir xs) ys
  | [], _, _ => rfl
  | x :: xs, prevdir, ys => by
    rw [List.cons_append, walkFrom_cons, walkFrom_cons, walkFrom_append xs _ ys]
    simp [walkPrev, List.append_assoc]

/-- `walkPrev` splits over appends. -/
theorem walkPrev_append : ∀ (xs : List MEntry) (prevdir : Str) (ys : List MEntry),
    walkPrev prevdir (xs ++ ys) = walkPrev (walkPrev prevdir xs) ys
  | [], _, _ => rfl
  | x :: xs, _, ys => walkPrev_append xs _ ys

/-- `commonPath a b` is also a prefix of `a`. -/
theorem commonPath_pre_left (a b : Str) : commonPath a b <+: a := by
  unfold commonPath
  exact List.take_prefix _ _

/-- A directory-marker entry whose trailing separator lies beyond the
common prefix with the incoming prevdir state gets its own name emitted
twice in a row (dir emission, then entry emission): the scan fires. -/
theorem scanList_marker_block (f : MEntry) (ys : List MEntry) (prevdir pn : Str)
    (hlast : f.name.getLast? = some sep)
    (holt : (commonPath prevdir f.name).length < f.name.length) :
    scanList pn (walkFrom prevdir (f :: ys)) = true := by
  rw [walkFrom_cons, scanList_append]
  have hl : lastD pn (walkInner f.name (commonPath prevdir f.name).length).1 = f.name := by
    unfold walkInner
    exact lastD_walkInnerAux _ f.name _ _ pn rfl holt hlast
  rw [hl]
  have hfire : scanList f.name (f.name :: walkFrom
      (f.name.take (walkInner f.name (commonPath prevdir f.name).length).2) ys) = true := by
    rw [scanList_cons, if_pos (by simp)]
  rw [hfire]
  exact Bool.or_true _

/-- A successful build of two or more entries passed the duplicate scan on
the sorted sequence, which the store then holds. -/
theorem MakeMemFS_scan_false {files : List MEntry} {m : memFS}
    (h : MakeMemFS files = .ok m) (hl : 2 ≤ files.length) :
    scanList [] (walk [] (files.insertionSort entLe)) = false
    ∧ m.files = files.insertionSort entLe := by
  unfold MakeMemFS at h
  split at h
  · exact Except.noConfusion h
  · split at h
    · next hle =>
      exfalso
      omega
    · split at h
      · exact Except.noConfusion h
      · next hscan =>
        injection h with h
        subst h
        exact ⟨by simpa using hscan, rfl⟩

/-- Duplicate paths anywhere in the input make the build fail: a success
would be strictly sorted, hence duplicate-free. -/
theorem dup_build_fails (files : List MEntry)
    (hdup : ¬(files.map MEntry.name).Nodup) :
    ∃ err, MakeMemFS files = .error err := by
  rcases herr : MakeMemFS files with err | m
  · exact ⟨err, rfl⟩
  · exfalso
    apply hdup
    have hstrict := MakeMemFS_strict herr
    have hnodup : (m.files.map MEntry.name).Nodup := by
      have hpw : m.files.Pairwise (fun a b => a.name ≠ b.name) :=
        hstrict.imp (fun h => strLt_ne h)
      exact List.pairwise_map.mpr hpw
    exact ((MakeMemFS_perm herr).map MEntry.name).nodup_iff.mp hnodup

/-- A directory-marker entry in a collection of TWO or more entries makes
the build fail: its name is emitted twice in a row by the walk. -/
theorem marker_build_fails (files : List MEntry) (hlen2 : 2 ≤ files.length)
    (f0 : MEntry) (hf0 : f0 ∈ files) (hdir : isDir f0.name = true) :
    ∃ err, MakeMemFS files = .error err := by
  rcases herr : MakeMemFS files with err | m
  · exact ⟨err, rfl⟩
  · exfalso
    have hstrict := MakeMemFS_strict herr
    obtain ⟨hscan, hfiles⟩ := MakeMemFS_scan_false herr hlen2
    rw [hfiles] at hstrict
    have hmem : f0 ∈ files.insertionSort entLe := (List.mem_insertionSort entLe).mpr hf0
    obtain ⟨xs, ys, hsplit⟩ := List.append_of_mem hmem
    rw [hsplit] at hscan hstrict
    by_cases hname : f0.name = []
    · have hxs : xs = [] := by
        rcases xs with _ | ⟨x, xs'⟩
        · rfl
        · exfalso
          have hpa : strLt x.name f0.name = true :=
            (List.pairwise_append.mp hstrict).2.2 x
              (List.mem_cons_self x xs') f0 (List.mem_cons_self f0 ys)
          rw [hname, strLt_nil] at hpa
          exact Bool.noConfusion hpa
      subst hxs
      rw [List.nil_append] at hscan
      unfold walk at hscan
      have hfire : scanList [] (walkFrom [] (f0 :: ys)) = true := by
        rw [walkFrom_cons, hname]
        have e1 : walkInner [] (commonPath [] []).length = ([], 0) := rfl
        rw [e1]
        show scanList [] ([] :: walkFrom [] ys) = true
        rw [scanList_cons, if_pos (by simp)]
      rw [hfire] at hscan
      exact Bool.noConfusion hscan
    · have hlast : f0.name.getLast? = some sep := by
        unfold isDir at hdir
        rcases Bool.or_eq_true_iff.mp hdir with h | h
        · exact absurd (List.isEmpty_iff.mp h) hname
        · simpa using h
      have holt : (commonPath (walkPrev [] xs) f0.name).length < f0.name.length := by
        by_contra hge
        push_neg at hge
        have hple : (commonPath (walkPrev [] xs) f0.name).length ≤ f0.name.length :=
          (commonPath_pre (walkPrev [] xs) f0.name).length_le
        have heq : (commonPath (walkPrev [] xs) f0.name).length = f0.name.length := by
          omega
        have hcpeq : commonPath (walkPrev [] xs) f0.name = f0.name :=
          List.IsPrefix.eq_of_length (commonPath_pre (walkPrev [] xs) f0.name) heq
        have hfp : f0.name <+: walkPrev [] xs := by
          rw [← hcpeq]
          exact commonPath_pre_left _ _
        rcases List.eq_nil_or_concat xs with hxs | ⟨xs', p, hxs⟩
        · rw [hxs] at hfp
          have hnil : f0.name <+: ([] : Str) := hfp
          exact hname (List.prefix_nil.mp hnil)
        · rw [hxs, List.concat_eq_append, walkPrev_append] at hfp
          have hpp : walkPrev (walkPrev [] xs') [p] <+: p.name :=
            List.take_prefix _ p.name
          have hle := strLe_of_pre f0.name (hfp.trans hpp)
          have hpmem : p ∈ xs := by
            rw [hxs, List.concat_eq_append]
            exact List.mem_append.mpr (Or.inr (List.mem_singleton.mpr rfl))
          have hplt : strLt p.name f0.name = true :=
            (List.pairwise_append.mp hstrict).2.2 p hpmem f0 (List.mem_cons_self f0 ys)
          rw [strLt_not_of_le hle] at hplt
          exact Bool.noConfusion hplt
      unfold walk at hscan
      rw [walkFrom_append, scanList_append] at hscan
      rw [scanList_marker_block f0 ys (walkPrev [] xs) _ hlast holt] at hscan
      rw [Bool.or_true] at hscan
      exact Bool.noConfusion hscan

/-- C1 (amended): construction fails whenever the collection holds two
entries with identical paths (anywhere, not only adjacent), and ALSO —
contrary to the claim — whenever a directory-marker entry appears among
two or more entries (the walk emits the marker name twice in a row);
conversely, a file path that is a strict prefix-with-separator of another
entry's path does not by itself cause failure when the colliding pair is
not adjacent in sorted order (see the counterexample). -/
theorem c1_build_failure (files : List MEntry) :
    (¬(files.map MEntry.name).Nodup → ∃ err, MakeMemFS files = .error err)
    ∧ (2 ≤ files.length → (∃ f ∈ files, isDir f.name = true) →
        ∃ err, MakeMemFS files = .error err) :=
  ⟨dup_build_fails files,
   fun h2 h => by
     obtain ⟨f0, hf0, hd⟩ := h
     exact marker_build_fails files h2 f0 hf0 hd⟩

/-- Witness for C1: the duplicate {"a", "a"} and the marker collection
{"a/", "b"} both fail to build. -/
theorem c1_build_failure_witness :
    (∃ err, MakeMemFS [⟨str "a", str "x"⟩, ⟨str "a", []⟩] = .error err)
    ∧ (∃ err, MakeMemFS [⟨str "a/", []⟩, ⟨str "b", []⟩] = .error err) := by
  constructor
  · exact (c1_build_failure [⟨str "a", str "x"⟩, ⟨str "a", []⟩]).1 (by decide)
  · exact (c1_build_failure [⟨str "a/", []⟩, ⟨str "b", []⟩]).2 (by decide)
      ⟨⟨str "a/", []⟩, by decide, by decide⟩
